import Mathlib

/-!
Verification of the Document Post-Processing Pipeline
(doc-tools/DocPostProcessor.py) against its natural-language specification.

Strings are modelled as lists of characters (Python `str`).  The regular
expressions used by the cleaner are embedded through a small backtracking
matcher (`matchRE`) whose alternatives are produced in Python's backtracking
priority order, so that `subAll`/`findAllRE` reproduce `re.sub`/`re.findall`
(leftmost match, first alternative) on the pattern shapes the code uses.
None of the embedded patterns can match the empty string, so the zero-width
corner of Python's scanning loop never arises.
-/

set_option autoImplicit false

abbrev Str := List Char

/-- Whitespace test matching Python's `str.split` / `\s` on ASCII input. -/
def isWs : Char → Bool
  | ' ' | '\t' | '\n' | '\r' | '\x0b' | '\x0c' => true
  | _ => false

/-- Accumulating scan behind `pySplitWs`; `acc` is the current word,
reversed. -/
def pySplitWsAcc : Str → Str → List Str
  | acc, [] => if acc = [] then [] else [acc.reverse]
  | acc, c :: rest =>
    if isWs c then
      (if acc = [] then pySplitWsAcc [] rest else acc.reverse :: pySplitWsAcc [] rest)
    else pySplitWsAcc (c :: acc) rest

/-- Python `str.split()` with no separator: split on whitespace runs,
dropping empty pieces. -/
def pySplitWs (s : Str) : List Str := pySplitWsAcc [] s

/-- Python `' '.join(ws)`. -/
def joinW (ws : List Str) : Str := List.intercalate [' '] ws

/-- Python `s.split('\n')` (keeps empty pieces). -/
def splitNl : Str → List Str
  | [] => [[]]
  | c :: rest =>
    if c = '\n' then [] :: splitNl rest
    else
      match splitNl rest with
      | [] => [[c]]
      | h :: t => (c :: h) :: t

/-- Python `s.strip()` (ASCII whitespace). -/
def pyStrip (s : Str) : Str := ((s.dropWhile isWs).reverse.dropWhile isWs).reverse

/-- Fuelled scanning loop behind `replaceAll` (the fuel is an upper bound
on the remaining length, so it is never exhausted when the caller passes
the string's length). -/
def replaceAllFuel (old new : Str) : Nat → Str → Str
  | _, [] => []
  | 0, s => s
  | fuel + 1, c :: rest =>
    if old ≠ [] ∧ old.isPrefixOf (c :: rest) then
      new ++ replaceAllFuel old new fuel (List.drop old.length (c :: rest))
    else c :: replaceAllFuel old new fuel rest

/-- Python `s.replace(old, new)` for a non-empty `old` (all the strings the
code replaces are non-empty; for empty `old` we return `s` unchanged). -/
def replaceAll (old new s : Str) : Str := replaceAllFuel old new s.length s

/-- Python `s.replace(old, new, 1)` for non-empty `old`. -/
def replaceOnce (old new : Str) : Str → Str
  | [] => []
  | c :: rest =>
    if old ≠ [] ∧ old.isPrefixOf (c :: rest) then
      new ++ List.drop old.length (c :: rest)
    else c :: replaceOnce old new rest

def subOccursGo (n : Str) : Str → Bool
  | [] => false
  | c :: rest => n.isPrefixOf (c :: rest) || subOccursGo n rest

/-- Python `n in h` on strings: substring occurrence (the empty string
occurs in every string). -/
def subOccurs (n h : Str) : Bool := if n = [] then true else subOccursGo n h

/-! ### A small regex matcher

Only the constructs used by the source's patterns are represented.  Every
repetition node repeats a single-character class, which keeps the matcher
total and the backtracking order easy to state: `matchRE` lists candidate
match states in exactly Python's backtracking priority order, so the head of
the list is the match Python's engine selects. -/

inductive RE where
  | eps : RE
  | lit : Str → RE
  | cls : (Char → Bool) → RE
  | seq : RE → RE → RE
  | alt : RE → RE → RE
  | starL : (Char → Bool) → RE
  | starG : (Char → Bool) → RE
  | repGE : Nat → (Char → Bool) → RE
  | repRange : Nat → Nat → (Char → Bool) → RE
  | bol : RE
  | eolM : RE
  | endS : RE
  | look : RE → RE

/-- Candidate states after a lazy class star, shortest first.  A state is
(previous character, remaining input); the previous character supports the
MULTILINE `^` anchor. -/
def clsStarL (p : Char → Bool) : Option Char → Str → List (Option Char × Str)
  | last, [] => [(last, [])]
  | last, c :: rest => (last, c :: rest) :: (if p c then clsStarL p (some c) rest else [])

/-- Consume exactly `n` characters of class `p`. -/
def consumeN (p : Char → Bool) : Nat → Option Char → Str → Option (Option Char × Str)
  | 0, last, rem => some (last, rem)
  | _ + 1, _, [] => none
  | n + 1, _, c :: rest => if p c then consumeN p n (some c) rest else none

def litLast (cs : Str) (last : Option Char) : Option Char :=
  match cs.getLast? with
  | some c => some c
  | none => last

/-- All ways the pattern can match a prefix of `rem`, in Python's
backtracking priority order (lazy stars shortest first, greedy longest
first, left alternative first). -/
def matchRE : RE → Option Char → Str → List (Option Char × Str)
  | .eps, last, rem => [(last, rem)]
  | .lit cs, last, rem =>
    if cs.isPrefixOf rem then [(litLast cs last, rem.drop cs.length)] else []
  | .cls p, _, rem =>
    match rem with
    | [] => []
    | c :: rest => if p c then [(some c, rest)] else []
  | .seq a b, last, rem => (matchRE a last rem).bind (fun s => matchRE b s.1 s.2)
  | .alt a b, last, rem => matchRE a last rem ++ matchRE b last rem
  | .starL p, last, rem => clsStarL p last rem
  | .starG p, last, rem => (clsStarL p last rem).reverse
  | .repGE n p, last, rem =>
    match consumeN p n last rem with
    | none => []
    | some s => (clsStarL p s.1 s.2).reverse
  | .repRange lo hi p, last, rem =>
    match consumeN p lo last rem with
    | none => []
    | some s => ((clsStarL p s.1 s.2).take (hi - lo + 1)).reverse
  | .bol, last, rem => if last = none ∨ last = some '\n' then [(last, rem)] else []
  | .eolM, last, rem => if rem = [] ∨ rem.head? = some '\n' then [(last, rem)] else []
  | .endS, last, rem => if rem = [] then [(last, rem)] else []
  | .look r, last, rem => if matchRE r last rem = [] then [] else [(last, rem)]

/-- Fuelled scanning loop of `re.sub(pattern, repl, s)`: at each position
try the pattern; on a (non-empty) match emit the replacement and continue
after the match, otherwise move one character right.  The fuel bounds the
remaining length and is never exhausted when the caller passes the string's
length. -/
def subAllFuel (re : RE) (repl : Str) : Nat → Option Char → Str → Str
  | _, _, [] => []
  | 0, _, s => s
  | fuel + 1, last, c :: rest =>
    match (matchRE re last (c :: rest)).head? with
    | some s =>
      if s.2.length < (c :: rest).length then repl ++ subAllFuel re repl fuel s.1 s.2
      else c :: subAllFuel re repl fuel (some c) rest
    | none => c :: subAllFuel re repl fuel (some c) rest

def subAll (re : RE) (repl : Str) (s : Str) : Str := subAllFuel re repl s.length none s

/-- Fuelled scanning loop of `re.findall(pattern, s)` (for group-free
patterns). -/
def findAllFuel (re : RE) : Nat → Option Char → Str → List Str
  | _, _, [] => []
  | 0, _, _ => []
  | fuel + 1, last, c :: rest =>
    match (matchRE re last (c :: rest)).head? with
    | some s =>
      if s.2.length < (c :: rest).length then
        ((c :: rest).take ((c :: rest).length - s.2.length)) :: findAllFuel re fuel s.1 s.2
      else findAllFuel re fuel (some c) rest
    | none => findAllFuel re fuel (some c) rest

def findAllRE (re : RE) (s : Str) : List Str := findAllFuel re s.length none s

def strRE (s : String) : RE := .lit s.toList

def seqs (rs : List RE) : RE := rs.foldr RE.seq RE.eps

/-- Pattern matching no input at all (used as the unit of alternation). -/
def failRE : RE := .cls (fun _ => false)

def alts (rs : List RE) : RE := rs.foldr RE.alt failRE

def anyCh : Char → Bool := fun _ => true

def nonNl : Char → Bool := fun c => !(c == '\n')

/-- Lazy dot-star under DOTALL. -/
def lazyD : RE := .starL anyCh

/-- Lazy dot-star without DOTALL (dot excludes newline). -/
def lazyN : RE := .starL nonNl

def isNl : Char → Bool := fun c => c == '\n'

def isSp : Char → Bool := fun c => c == ' '

def isHash : Char → Bool := fun c => c == '#'

/-! ### DocumentCleaner (DocPostProcessor.py lines 84-186)

The three pattern tiers of `DocumentCleaner.__init__`, transcribed
pattern-by-pattern.  Header and footer patterns are applied with
MULTILINE|DOTALL (dot matches newline), navigation patterns with MULTILINE
only (dot excludes newline). -/

def headerPatterns : List RE := [
  seqs [strRE "[", lazyD, strRE "home page", lazyD, strRE "](", lazyD, strRE ")"],
  strRE "Search...",
  strRE "‚åòK",
  strRE "Navigation",
  seqs [strRE "* [Research]", lazyD, strRE "\n"],
  seqs [strRE "* [News]", lazyD, strRE "\n"],
  seqs [strRE "* [Go to", lazyD, strRE "]", lazyD, strRE "\n"],
  strRE "English\n",
  seqs [strRE "![", lazyD, strRE "logo](", lazyD, strRE ")"]]

def footerPatterns : List RE := [
  seqs [strRE "Was this page helpful?", lazyD, strRE "YesNo"],
  seqs [strRE "[x](https://x.com/", lazyD, strRE ")"],
  seqs [strRE "[linkedin](", lazyD, strRE ")"],
  seqs [strRE "On this page\n", lazyD, .look (.alt (strRE "\n\n") .endS)]]

def navigationPatterns : List RE := [
  seqs [strRE "[Welcome](", lazyN, strRE ")"],
  seqs [strRE "[Developer Guide](", lazyN, strRE ")"],
  seqs [strRE "[API Guide](", lazyN, strRE ")"],
  seqs [strRE "[Resources](", lazyN, strRE ")"],
  seqs [strRE "[Release Notes](", lazyN, strRE ")"],
  seqs [strRE "* [Documentation](", lazyN, strRE ")"],
  seqs [strRE "* [Developer Console](", lazyN, strRE ")"],
  seqs [strRE "* [Support](", lazyN, strRE ")"]]

def sectionNames : List String := ["First steps", "Models & pricing",
  "Learn about Claude", "Explore features", "Agent components",
  "Test & evaluate", "Legal center"]

/-- The standalone-navigation-sections pattern of `clean_document`
(hash marks 1-5, optional spaces, a known section title, then everything
up to the next line starting with a hash or the end of input). -/
def sectionRE : RE :=
  seqs [.bol, .repRange 1 5 isHash, .starG isSp, alts (sectionNames.map strRE),
    strRE "\n", lazyD, .look (.alt (.seq .bol (strRE "#")) .endS)]

/-- Three-or-more newlines (collapsed to two). -/
def newlines3RE : RE := .repGE 3 isNl

/-- Two-or-more spaces (collapsed to one). -/
def spaces2RE : RE := .repGE 2 isSp

/-- An empty bullet line. -/
def emptyBulletRE : RE := seqs [.bol, strRE "*", .starG isSp, .eolM]

/-- A fenced code block (three backticks, lazily anything, three backticks). -/
def fenceRE : RE := seqs [strRE "```", .starL anyCh, strRE "```"]

/-- A line consisting only of whitespace (removed inside
`_preserve_important_structure`). -/
def blankLineRE : RE := seqs [.bol, .starG isWs, strRE "\n"]

def removeAll (pats : List RE) (s : Str) : Str :=
  pats.foldl (fun acc p => subAll p [] acc) s

/-- The placeholder string used for code block number `i`. -/
def placeholder (i : Nat) : Str :=
  "__CODE_BLOCK_".toList ++ (Nat.repr i).toList ++ "__".toList

def preserveSubstLoop : Nat → List Str → Str → Str
  | _, [], content => content
  | i, b :: rest, content => preserveSubstLoop (i + 1) rest (replaceOnce b (placeholder i) content)

def preserveRestoreLoop : Nat → List Str → Str → Str
  | _, [], content => content
  | i, b :: rest, content => preserveRestoreLoop (i + 1) rest (replaceAll (placeholder i) b content)

/-- `DocumentCleaner._preserve_important_structure`: replace each fenced
code block (first occurrence) by a placeholder, drop whitespace-only lines,
then restore the blocks. -/
def preserve_important_structure (content : Str) : Str :=
  let codeBlocks := findAllRE fenceRE content
  let c1 := preserveSubstLoop 0 codeBlocks content
  let c2 := subAll blankLineRE [] c1
  preserveRestoreLoop 0 codeBlocks c2

/-- `DocumentCleaner.clean_document`: header, footer and navigation pattern
removal, whitespace normalisation, empty-bullet and navigation-section
removal, then (when requested) `_preserve_important_structure`, and a final
strip. -/
def clean_document (content : Str) (preserveStructure : Bool := true) : Str :=
  let c1 := removeAll headerPatterns content
  let c2 := removeAll footerPatterns c1
  let c3 := removeAll navigationPatterns c2
  let c4 := subAll newlines3RE "\n\n".toList c3
  let c5 := subAll spaces2RE " ".toList c4
  let c6 := subAll emptyBulletRE [] c5
  let c7 := subAll sectionRE [] c6
  let c8 := if preserveStructure then preserve_important_structure c7 else c7
  pyStrip c8

/-! ### DocumentCleaner.extract_metadata (lines 170-186)

The YAML library is a third-party collaborator, so the parser enters the
embedding as a parameter `parse`.  `PyY` classifies a parse result the way
the Python code observes it: `ynull` (the parse produced None: falsy, no
conversion loop, returned as-is), `ydict l` (a mapping: the conversion loop
turns datetime values into their ISO strings; an empty mapping is falsy and
skips the loop, which is the identity on it anyway), and `yscalar b` (any
non-mapping value with truthiness `b`: when truthy the conversion loop's
`.items()` call raises AttributeError, landing in the bare `except` that
returns an empty mapping with the original text; when falsy the value is
returned as-is).  A parse exception is `Except.error`. -/

inductive PyVal where
  | vstr : Str → PyVal
  | vdt : Str → PyVal
  | vother : PyVal
deriving DecidableEq

inductive PyY where
  | ynull : PyY
  | ydict : List (Str × PyVal) → PyY
  | yscalar : Bool → PyY
deriving DecidableEq

instance : DecidableEq (Except Unit PyY) := fun x y =>
  match x, y with
  | .error a, .error b => .isTrue (by cases a; cases b; rfl)
  | .ok a, .ok b =>
    if h : a = b then .isTrue (by rw [h]) else .isFalse (by simp [h])
  | .error _, .ok _ => .isFalse (by simp)
  | .ok _, .error _ => .isFalse (by simp)

/-- Datetime-to-ISO-string conversion done by the loop body
(`hasattr(value, 'isoformat')`). -/
def convVal : PyVal → PyVal
  | .vdt iso => .vstr iso
  | v => v

/-- Leftmost split at one occurrence of `pat` (a step of Python
`str.split(pat, ...)` for non-empty `pat`). -/
def splitOnce (pat : Str) : Str → Option (Str × Str)
  | [] => none
  | c :: rest =>
    if pat.isPrefixOf (c :: rest) then some ([], List.drop pat.length (c :: rest))
    else (splitOnce pat rest).map (fun pr => (c :: pr.1, pr.2))

/-- Python `s.split(pat, 2)` when it yields three parts; `none` when there
are fewer than two occurrences, in which case the source's three-name
unpacking raises ValueError into the bare `except`. -/
def pySplit3 (pat s : Str) : Option (Str × Str × Str) :=
  match splitOnce pat s with
  | none => none
  | some (a, r1) =>
    match splitOnce pat r1 with
    | none => none
    | some (b, r2) => some (a, b, r2)

/-- `DocumentCleaner.extract_metadata`. -/
def extract_metadata (parse : Str → Except Unit PyY) (content : Str) : PyY × Str :=
  if "---".toList.isPrefixOf content then
    match pySplit3 "---".toList content with
    | none => (.ydict [], content)
    | some (_, fm, rest) =>
      match parse fm with
      | .error _ => (.ydict [], content)
      | .ok .ynull => (.ynull, rest)
      | .ok (.ydict l) => (.ydict (l.map (fun kv => (kv.1, convVal kv.2))), rest)
      | .ok (.yscalar b) => if b then (.ydict [], content) else (.yscalar b, rest)
  else (.ydict [], content)

/-! ### DocumentStructurer (lines 189-357) -/

/-- Document-level metadata handed to `structure_document`
(`metadata.get('url', '')` and friends: absent keys are the empty
string). -/
structure DocMeta where
  url : Str := []
  scraped_at : Str := []
  title : Str := []
deriving DecidableEq

/-- A chunk's metadata dictionary with its possible keys as fields:
`section_level`/`section_title` (absent for the implicit Introduction
section), `mtype` (the `'type'` key), and the document-level fields merged
in at the end of `structure_document`. -/
structure ChunkMeta where
  section_level : Option Nat := none
  section_title : Option Str := none
  mtype : Str := []
  source_url : Str := []
  scraped_at : Str := []
  doc_title : Str := []
deriving DecidableEq

/-- The `DocumentChunk` dataclass (minus the unused embedding field). -/
structure DocumentChunk where
  content : Str
  metadata : ChunkMeta
  chunk_id : Str
  parent_doc : Str
  position : Nat
  tokens : Nat
deriving DecidableEq

def hexDigit (n : Nat) : Char :=
  if n < 10 then Char.ofNat ('0'.toNat + n) else Char.ofNat ('a'.toNat + n - 10)

/-- Deterministic 8-hex-character content id, modelling
`hashlib.md5(content).hexdigest()[:8]` (the library hash is external; the
claims only use that the id is a function of the content). -/
def hashId (s : Str) : Str :=
  (List.range 8).map (fun i => hexDigit ((s.foldl (fun a c => (a * 131 + c.toNat) % 4294967296) 7) / 16 ^ i % 16))

/-- One parsed section of `_parse_sections`. -/
structure PySection where
  level : Nat
  title : Str
  content : Str
  smeta : Option (Nat × Str)
deriving DecidableEq

/-- Match of `re.match(r'^{hashes} (.+)$', line)` for a newline-free
`line`, returning the captured title. -/
def headerAt (lv : Nat) (line : Str) : Option Str :=
  if (List.replicate lv '#' ++ [' ']).isPrefixOf line ∧ line.drop (lv + 1) ≠ [] then
    some (line.drop (lv + 1))
  else none

def findHeaderFrom : List Nat → Str → Option (Nat × Str)
  | [], _ => none
  | lv :: rest, line =>
    match headerAt lv line with
    | some t => some (lv, t)
    | none => findHeaderFrom rest line

/-- The header scan of `_parse_sections` (levels 1 to 5, first match
wins). -/
def findHeader (line : Str) : Option (Nat × Str) := findHeaderFrom [1, 2, 3, 4, 5] line

/-- Line loop of `_parse_sections`: current section state is (level, title,
section metadata) plus the accumulated lines. -/
def sectionsGo : List Str → Nat × Str × Option (Nat × Str) → List Str → List PySection
  | [], cur, acc =>
    if acc ≠ [] then [⟨cur.1, cur.2.1, List.intercalate ['\n'] acc, cur.2.2⟩] else []
  | line :: rest, cur, acc =>
    match findHeader line with
    | some (lv, t) =>
      (if acc ≠ [] then [⟨cur.1, cur.2.1, List.intercalate ['\n'] acc, cur.2.2⟩] else []) ++
        sectionsGo rest (lv, t, some (lv, t)) []
    | none => sectionsGo rest cur (acc ++ [line])

/-- `DocumentStructurer._parse_sections`. -/
def parse_sections (content : Str) : List PySection :=
  sectionsGo (splitNl content) (0, "Introduction".toList, none) []

def mkChunkMeta (sm : Option (Nat × Str)) (t : Str) : ChunkMeta :=
  { section_level := sm.map Prod.fst, section_title := sm.map Prod.snd, mtype := t }

/-- Code-block loop of `_create_semantic_chunks`: each found block is
replaced (all occurrences) by the placeholder numbered with the current
chunk count, and emitted as its own `type='code'` chunk. -/
def codeLoop (sm : Option (Nat × Str)) : List Str → Str → List DocumentChunk → Str × List DocumentChunk
  | [], content, chunks => (content, chunks)
  | cb :: rest, content, chunks =>
    codeLoop sm rest (replaceAll cb (placeholder chunks.length) content)
      (chunks ++ [{ content := cb, metadata := mkChunkMeta sm "code".toList,
                    chunk_id := hashId cb, parent_doc := [], position := chunks.length,
                    tokens := (pySplitWs cb).length }])

/-- Placeholder restoration applied to a text chunk's content. -/
def restoreBlocks (codeBlocks : List Str) (s : Str) : Str :=
  codeBlocks.enum.foldl (fun acc p => replaceAll (placeholder p.1) p.2 acc) s

/-- Python `l[-k:]` (note `l[-0:]` is the whole list). -/
def pyTailSlice {α : Type} (k : Nat) (l : List α) : List α :=
  if k = 0 then l else l.drop (l.length - k)

/-- Word loop of `_create_semantic_chunks`: accumulate words; close a chunk
when the running count reaches the chunk size, reseeding with the trailing
`min overlap length` words; emit any leftover as a final chunk. -/
def textLoop (sz ov : Nat) (codeBlocks : List Str) (sm : Option (Nat × Str)) :
    List Str → List Str → Nat → List DocumentChunk → List DocumentChunk
  | [], cur, n, chunks =>
    if cur ≠ [] then
      chunks ++ [{ content := restoreBlocks codeBlocks (joinW cur),
                   metadata := mkChunkMeta sm "text".toList,
                   chunk_id := hashId (restoreBlocks codeBlocks (joinW cur)),
                   parent_doc := [], position := chunks.length, tokens := n }]
    else chunks
  | w :: ws, cur, n, chunks =>
    let cur2 := cur ++ [w]
    let n2 := n + 1
    if sz ≤ n2 then
      let cc := restoreBlocks codeBlocks (joinW cur2)
      let chunks2 := chunks ++ [{ content := cc, metadata := mkChunkMeta sm "text".toList,
                                  chunk_id := hashId cc, parent_doc := [],
                                  position := chunks.length, tokens := n2 }]
      textLoop sz ov codeBlocks sm ws (pyTailSlice (min ov cur2.length) cur2)
        (min ov cur2.length) chunks2
    else textLoop sz ov codeBlocks sm ws cur2 n2 chunks

/-- `DocumentStructurer._create_semantic_chunks` with the structurer's
`chunk_size` and `chunk_overlap` as the first two arguments (defaults 1000
and 200). -/
def create_semantic_chunks (sz ov : Nat) (content : Str) (sm : Option (Nat × Str)) : List DocumentChunk :=
  if pyStrip content = [] then []
  else
    let codeBlocks := findAllRE fenceRE content
    let p := codeLoop sm codeBlocks content []
    textLoop sz ov codeBlocks sm (pySplitWs p.1) [] 0 p.2

/-- `DocumentStructurer.structure_document`. -/
def structure_document (sz ov : Nat) (content : Str) (md : DocMeta) : List DocumentChunk :=
  ((parse_sections content).bind
    (fun s => create_semantic_chunks sz ov s.content s.smeta)).map
    (fun ch => { ch with metadata :=
      { ch.metadata with source_url := md.url, scraped_at := md.scraped_at, doc_title := md.title } })

/-! ### DocumentSorter (lines 360-539)

`networkx` is a third-party collaborator.  The directed graph is modelled
as its edge list (duplicate insertions are harmless for the membership
facts proved below); `predecessors v` is the set of nodes `u` with an edge
`u → v`, listed in node order; `topological_sort` is modelled by a Kahn
peeling that succeeds exactly on acyclic (sub)graphs, mirroring
`NetworkXUnfeasible` being raised exactly when a cycle exists.  The one
external call of `classify_document` enters as a parameter: the response
text (already stripped and lowercased as in the source), or `none` when
there is no client or the call failed. -/

/-- The `ProcessedDocument` dataclass. -/
structure ProcessedDocument where
  file_path : Str
  original_url : Str
  title : Str
  chunks : List DocumentChunk := []
  category : Option Str := none
  topics : List Str := []
  dependencies : List Str := []
  complexity_score : ℚ := 0
deriving DecidableEq

/-- The fixed category table of `DocumentSorter.__init__`, in insertion
order. -/
def categoriesTable : List (Str × List Str) :=
  [("getting_started".toList, ["introduction".toList, "quickstart".toList, "setup".toList, "installation".toList]),
   ("concepts".toList, ["overview".toList, "concepts".toList, "architecture".toList, "principles".toList]),
   ("guides".toList, ["guide".toList, "tutorial".toList, "how-to".toList, "walkthrough".toList]),
   ("api_reference".toList, ["api".toList, "reference".toList, "endpoints".toList, "methods".toList]),
   ("examples".toList, ["example".toList, "sample".toList, "demo".toList, "code".toList]),
   ("advanced".toList, ["advanced".toList, "optimization".toList, "performance".toList, "scaling".toList]),
   ("troubleshooting".toList, ["troubleshooting".toList, "errors".toList, "debugging".toList, "issues".toList])]

/-- Python `str.lower()` (ASCII). -/
def toLowerStr (s : Str) : Str := s.map Char.toLower

/-- Category loop of `_rule_based_classification`: first category any of
whose keywords occurs in the lowered title or lowered URL; `'guides'` when
none does. -/
def ruleGo (titleL urlL : Str) : List (Str × List Str) → Str
  | [] => "guides".toList
  | (cat, kws) :: rest =>
    if kws.any (fun k => subOccurs k titleL || subOccurs k urlL) then cat
    else ruleGo titleL urlL rest

/-- `DocumentSorter._rule_based_classification`. -/
def rule_based_classification (doc : ProcessedDocument) : Str :=
  ruleGo (toLowerStr doc.title) (toLowerStr doc.original_url) categoriesTable

/-- `DocumentSorter.classify_document`: `resp` is the external classifier's
(stripped, lowercased) response, `none` when there is no client or the call
failed; an out-of-vocabulary response falls back to the rule-based path. -/
def classify_document (resp : Option Str) (doc : ProcessedDocument) : Str :=
  match resp with
  | none => rule_based_classification doc
  | some category =>
    if (categoriesTable.map Prod.fst).contains category then category
    else rule_based_classification doc

/-- Python `' '.join(chunk.content for chunk in doc.chunks)`. -/
def concatContent (doc : ProcessedDocument) : Str := joinW (doc.chunks.map (fun c => c.content))

/-- `DocumentSorter.create_dependency_graph` as an edge list: one entry per
`add_edge` call (an URL hit and a title hit each insert the same edge;
`networkx` deduplicates, which membership facts do not notice). -/
def create_dependency_graph (documents : List ProcessedDocument) : List (Str × Str) :=
  documents.bind (fun doc =>
    documents.bind (fun other =>
      if doc.file_path ≠ other.file_path then
        (if subOccurs other.original_url (concatContent doc) then [(doc.file_path, other.file_path)] else []) ++
        (if subOccurs other.title (concatContent doc) then [(doc.file_path, other.file_path)] else [])
      else []))

/-- `graph.predecessors(v)`: nodes with an edge into `v`, in node order. -/
def predecessorsIn (documents : List ProcessedDocument) (g : List (Str × Str)) (v : Str) : List Str :=
  (documents.map (fun d => d.file_path)).filter (fun u => g.contains (u, v))

/-- Per-document complexity of `calculate_complexity_scores` (exact
rational arithmetic in place of Python floats). -/
def complexityOf (doc : ProcessedDocument) : ℚ :=
  let total_tokens : ℚ := ((doc.chunks.map (fun c => c.tokens)).sum : Nat)
  let code_chunks : ℚ := ((doc.chunks.filter (fun c => c.metadata.mtype = "code".toList)).length : Nat)
  let avg_chunk_size : ℚ := if doc.chunks = [] then 0 else total_tokens / (doc.chunks.length : ℚ)
  min 1 ((total_tokens / 10000) * (3 / 10) +
    (code_chunks / ((max doc.chunks.length 1 : Nat) : ℚ)) * (3 / 10) +
    (avg_chunk_size / 1000) * (2 / 10) +
    ((doc.dependencies.length : ℚ) / 10) * (2 / 10))

/-- `DocumentSorter.calculate_complexity_scores` (the in-place mutation is
represented by returning the updated list). -/
def calculate_complexity_scores (documents : List ProcessedDocument) : List ProcessedDocument :=
  documents.map (fun d => { d with complexity_score := complexityOf d })

/-- The fixed `category_order` list of `sort_documents` (same list drives
`_topological_sort_with_categories`). -/
def categoryOrder : List Str :=
  ["getting_started".toList, "concepts".toList, "guides".toList,
   "api_reference".toList, "examples".toList, "advanced".toList, "troubleshooting".toList]

/-- Position of a category in `category_order`, or 99 (`sort_key`). -/
def categoryIdx (c : Option Str) : Nat :=
  match c with
  | none => 99
  | some c => match categoryOrder.indexOf? c with
    | some i => i
    | none => 99

/-- Strict comparison on `sort_key` values. -/
def sortKeyLt (a b : ProcessedDocument) : Bool :=
  categoryIdx a.category < categoryIdx b.category ||
    (categoryIdx a.category = categoryIdx b.category && a.complexity_score < b.complexity_score)

/-- Stable insertion (a later element goes after existing equal keys),
building Python's stable `sorted`. -/
def insertStable {α : Type} (lt : α → α → Bool) (x : α) : List α → List α
  | [] => [x]
  | y :: ys => if lt x y then x :: y :: ys else y :: insertStable lt x ys

/-- Python `sorted(documents, key=sort_key)`: the unique stable sort by the
key. -/
def stableSortBy {α : Type} (lt : α → α → Bool) (l : List α) : List α :=
  l.foldl (fun acc x => insertStable lt x acc) []

/-- Edges of the induced subgraph on `files` (`graph.subgraph`). -/
def subgraphEdges (g : List (Str × Str)) (files : List Str) : List (Str × Str) :=
  g.filter (fun e => files.contains e.1 && files.contains e.2)

/-- Kahn peeling modelling `nx.topological_sort`: repeatedly output a node
with no incoming edge from the remaining nodes; `none` exactly when the
graph restricted to the remaining nodes is cyclic
(`NetworkXUnfeasible`). -/
def topoFuel (edges : List (Str × Str)) : Nat → List Str → Option (List Str)
  | _, [] => some []
  | 0, _ :: _ => none
  | fuel + 1, a :: l =>
    match (a :: l).find? (fun v => !((a :: l).any (fun u => edges.contains (u, v)))) with
    | none => none
    | some v => (topoFuel edges fuel ((a :: l).erase v)).map (fun out => v :: out)

def topoGo (edges : List (Str × Str)) (rem : List Str) : Option (List Str) :=
  topoFuel edges rem.length rem

/-- One iteration of the category loop of
`_topological_sort_with_categories`: the documents contributed for one
category (the `next(...)` document lookup is modelled with
`find?`/`filterMap`; under distinct file paths the lookup never fails, as
the original would otherwise raise StopIteration). -/
def tswcSeg (documents : List ProcessedDocument) (g : List (Str × Str)) (cat : Str) :
    List ProcessedDocument :=
  let bucket := documents.filter (fun d => d.category = some cat)
  if bucket = [] then []
  else
    let files := bucket.map (fun d => d.file_path)
    match topoGo (subgraphEdges g files) files with
    | some sortedFiles => sortedFiles.filterMap (fun f => bucket.find? (fun d => d.file_path = f))
    | none => bucket

/-- `DocumentSorter._topological_sort_with_categories`. -/
def topological_sort_with_categories (documents : List ProcessedDocument) (g : List (Str × Str)) :
    List ProcessedDocument :=
  categoryOrder.bind (tswcSeg documents g)

/-- `DocumentSorter.sort_documents`: classification, dependency graph,
dependency extraction, complexity scoring, the stable category/complexity
sort, then the per-category topological pass.  `resp` supplies the external
classifier's response per document (see `classify_document`). -/
def sort_documents (resp : ProcessedDocument → Option Str) (documents : List ProcessedDocument) :
    List ProcessedDocument :=
  let catDocs := documents.map (fun d => { d with category := some (classify_document (resp d) d) })
  let g := create_dependency_graph catDocs
  let depDocs := catDocs.map (fun d => { d with dependencies := predecessorsIn catDocs g d.file_path })
  let scored := calculate_complexity_scores depDocs
  let sortedDocs := stableSortBy sortKeyLt scored
  topological_sort_with_categories sortedDocs g

/-! ### Word-level view of the chunking loop (used to reason about
`textLoop`): the loop's branching depends only on the running count, so the
emitted chunks can be described on the bare word lists, paired with the
`tokens` value at emission time. -/

def wordLoopW {α : Type} (sz ov : Nat) : List α → List α → Nat → List (List α × Nat)
  | [], cur, n => if cur.isEmpty then [] else [(cur, n)]
  | w :: ws, cur, n =>
    let cur2 := cur ++ [w]
    if sz ≤ n + 1 then
      (cur2, n + 1) :: wordLoopW sz ov ws (pyTailSlice (min ov cur2.length) cur2) (min ov cur2.length)
    else wordLoopW sz ov ws cur2 (n + 1)

/-- Text chunk built by `textLoop` from a word list and token count at the
given position. -/
def mkTextChunk (codeBlocks : List Str) (sm : Option (Nat × Str)) (pos : Nat)
    (c : List Str) (t : Nat) : DocumentChunk :=
  { content := restoreBlocks codeBlocks (joinW c),
    metadata := mkChunkMeta sm "text".toList,
    chunk_id := hashId (restoreBlocks codeBlocks (joinW c)),
    parent_doc := [], position := pos, tokens := t }

def emitChunks (codeBlocks : List Str) (sm : Option (Nat × Str)) : Nat → List (List Str × Nat) → List DocumentChunk
  | _, [] => []
  | base, (c, t) :: rest => mkTextChunk codeBlocks sm base c t :: emitChunks codeBlocks sm (base + 1) rest

/-- Parser model for the C10 counterexample: PyYAML's `safe_load` on the
block `"\n\x7b\x7d\n"` (an empty flow mapping) yields the empty dict. -/
def yamlParseEmptyMap : Str → Except Unit PyY :=
  fun s => if s = "\n\x7b\x7d\n".toList then .ok (.ydict []) else .error ()

/-- Parser model for the C10 amended-claim witness: a one-key mapping whose
value is a datetime. -/
def yamlParseDt : Str → Except Unit PyY :=
  fun s =>
    if s = "\nd\n".toList then .ok (.ydict [("k".toList, .vdt "2024-01-01T00:00:00".toList)])
    else .ok .ynull

/-- A 2500-word section body (2500 copies of a one-letter word, space
separated), used to witness the 2500-word chunking scenario. -/
def c2500 : Str := List.intercalate [' '] (List.replicate 2500 ['a'])

/-- Default chunk used with `List.getD` in index-based statements. -/
def dfltChunk : DocumentChunk :=
  { content := [], metadata := {}, chunk_id := [], parent_doc := [], position := 0, tokens := 0 }

/-- Default document used with `List.getD` in index-based statements. -/
def dfltDoc : ProcessedDocument :=
  { file_path := [], original_url := [], title := [] }

/-- First document of the two-document cyclic-reference scenario: its
chunk content quotes the other document's title. -/
def cycDocA : ProcessedDocument :=
  { file_path := "a".toList, original_url := "ua".toList, title := "ta".toList,
    chunks := [{ content := "tb".toList, metadata := {}, chunk_id := [],
                 parent_doc := [], position := 0, tokens := 0 }],
    category := some "guides".toList }

/-- Second document of the cyclic-reference scenario, quoting the first
document's title, so the reference graph has the cycle a -- b -- a. -/
def cycDocB : ProcessedDocument :=
  { file_path := "b".toList, original_url := "ub".toList, title := "tb".toList,
    chunks := [{ content := "ta".toList, metadata := {}, chunk_id := [],
                 parent_doc := [], position := 0, tokens := 0 }],
    category := some "guides".toList }

/-- First document of the dependency-extraction scenario: classified
`getting_started` by its title, referenced by a quote of its title in
the other document. -/
def depDocA : ProcessedDocument :=
  { file_path := "a".toList, original_url := "ua".toList, title := "setup ta".toList,
    chunks := [{ content := "x".toList, metadata := {}, chunk_id := [],
                 parent_doc := [], position := 0, tokens := 0 }] }

/-- Second document of the dependency-extraction scenario: classified
`api_reference`; its chunk content quotes the first document's title, so it
is a predecessor of the first document in the reference graph. -/
def depDocB : ProcessedDocument :=
  { file_path := "b".toList, original_url := "ub".toList, title := "api tb".toList,
    chunks := [{ content := "see setup ta".toList, metadata := {}, chunk_id := [],
                 parent_doc := [], position := 0, tokens := 0 }] }

/-! # Theorems -/

/-- C1: the spec claims `clean_document` with `preserve_structure` never
mutates the text of a fenced code block; but the whitespace-normalisation
rules run before `_preserve_important_structure`, whose placeholder
protection therefore only covers the blank-line removal step.  On a fence
containing a double space the space-collapsing rule fires inside the
fence. -/
theorem C1_code_fence_mutated :
    clean_document "```\nx  y\n```".toList true = "```\nx y\n```".toList ∧
    clean_document "```\nx  y\n```".toList true ≠ "```\nx  y\n```".toList :=
  ⟨by decide, by decide⟩

theorem ruleGo_mem (tL uL : Str) :
    ∀ table : List (Str × List Str),
      ruleGo tL uL table = "guides".toList ∨ ruleGo tL uL table ∈ table.map Prod.fst := by
  intro table
  induction table with
  | nil => left; rfl
  | cons e rest ih =>
    by_cases h : e.2.any (fun k => subOccurs k tL || subOccurs k uL)
    · right
      cases e
      simp [ruleGo, h]
    · cases e with
      | mk c kws =>
        rcases ih with h1 | h1
        · left
          simpa [ruleGo, h] using h1
        · right
          simp only [ruleGo, h, if_false, List.map_cons, List.mem_cons]
          right
          exact h1

theorem ruleGo_find (tL uL : Str) :
    ∀ table : List (Str × List Str),
      ruleGo tL uL table =
        ((table.find? (fun e => e.2.any (fun k => subOccurs k tL || subOccurs k uL))).map
          Prod.fst).getD "guides".toList := by
  intro table
  induction table with
  | nil => rfl
  | cons e rest ih =>
    by_cases h : e.2.any (fun k => subOccurs k tL || subOccurs k uL)
    · cases e
      simp [ruleGo, List.find?_cons, h]
    · cases e
      simpa [ruleGo, List.find?_cons, h] using ih

/-- C6: `classify_document` always lands in the fixed category set (an
out-of-vocabulary or absent external response falls back to the rule-based
path), and the rule-based path returns the first category, in table
insertion order, with a keyword hit on the lowered title or URL, or
`'guides'` when none hits. -/
theorem C6_classification_closure (resp : Option Str) (doc : ProcessedDocument) :
    classify_document resp doc ∈ categoriesTable.map Prod.fst ∧
    rule_based_classification doc =
      ((categoriesTable.find? (fun e => e.2.any (fun k =>
          subOccurs k (toLowerStr doc.title) || subOccurs k (toLowerStr doc.original_url)))).map
        Prod.fst).getD "guides".toList := by
  constructor
  · have hrb : rule_based_classification doc ∈ categoriesTable.map Prod.fst := by
      rcases ruleGo_mem (toLowerStr doc.title) (toLowerStr doc.original_url) categoriesTable with h | h
      · rw [rule_based_classification, h]
        decide
      · exact h
    cases resp with
    | none => exact hrb
    | some category =>
      by_cases h : (categoriesTable.map Prod.fst).contains category = true
      · have heq : classify_document (some category) doc = category := by
          simp only [classify_document]
          rw [if_pos h]
        rw [heq]
        exact List.mem_of_elem_eq_true h
      · have heq : classify_document (some category) doc = rule_based_classification doc := by
          simp only [classify_document]
          rw [if_neg h]
        rw [heq]
        exact hrb
  · exact ruleGo_find _ _ _

/-- C8: the complexity score is exactly the spec's formula (in exact
rational arithmetic), lies in [0, 1], and `calculate_complexity_scores`
assigns it to every document. -/
theorem C8_complexity_formula (doc : ProcessedDocument) (docs : List ProcessedDocument) :
    complexityOf doc =
      min 1 ((3 / 10) * ((((doc.chunks.map (fun c => c.tokens)).sum : Nat) : ℚ) / 10000) +
        (3 / 10) * ((((doc.chunks.filter (fun c => c.metadata.mtype = "code".toList)).length : ℚ)) /
          ((max doc.chunks.length 1 : Nat) : ℚ)) +
        (2 / 10) * ((if doc.chunks = [] then (0 : ℚ)
          else (((doc.chunks.map (fun c => c.tokens)).sum : Nat) : ℚ) / (doc.chunks.length : ℚ)) / 1000) +
        (2 / 10) * ((doc.dependencies.length : ℚ) / 10)) ∧
    0 ≤ complexityOf doc ∧ complexityOf doc ≤ 1 ∧
    (calculate_complexity_scores docs).map (fun d => d.complexity_score) = docs.map complexityOf := by
  have harg : ∀ x y : ℚ, x = y → min 1 x = min 1 y := fun x y h => by rw [h]
  have hformula : complexityOf doc =
      min 1 ((3 / 10) * ((((doc.chunks.map (fun c => c.tokens)).sum : Nat) : ℚ) / 10000) +
        (3 / 10) * ((((doc.chunks.filter (fun c => c.metadata.mtype = "code".toList)).length : ℚ)) /
          ((max doc.chunks.length 1 : Nat) : ℚ)) +
        (2 / 10) * ((if doc.chunks = [] then (0 : ℚ)
          else (((doc.chunks.map (fun c => c.tokens)).sum : Nat) : ℚ) / (doc.chunks.length : ℚ)) / 1000) +
        (2 / 10) * ((doc.dependencies.length : ℚ) / 10)) := by
    simp only [complexityOf]
    apply harg
    generalize (((doc.chunks.map (fun c => c.tokens)).sum : Nat) : ℚ) = T
    generalize (((doc.chunks.filter (fun c => c.metadata.mtype = "code".toList)).length : Nat) : ℚ) = C
    generalize ((max doc.chunks.length 1 : Nat) : ℚ) = M
    generalize (doc.chunks.length : ℚ) = L
    generalize (if doc.chunks = [] then (0 : ℚ) else T / L) = A
    generalize (doc.dependencies.length : ℚ) = D
    ring
  refine ⟨hformula, ?_, ?_, ?_⟩
  · simp only [complexityOf]
    have h1 : (0 : ℚ) ≤ (((doc.chunks.map (fun c => c.tokens)).sum : Nat) : ℚ) / 10000 * (3 / 10) := by
      positivity
    have h2 : (0 : ℚ) ≤ (((doc.chunks.filter (fun c => c.metadata.mtype = "code".toList)).length : Nat) : ℚ) /
        ((max doc.chunks.length 1 : Nat) : ℚ) * (3 / 10) := by positivity
    have h3 : (0 : ℚ) ≤ (if doc.chunks = [] then (0 : ℚ)
        else (((doc.chunks.map (fun c => c.tokens)).sum : Nat) : ℚ) / (doc.chunks.length : ℚ)) / 1000 * (2 / 10) := by
      split
      · norm_num
      · positivity
    have h4 : (0 : ℚ) ≤ ((doc.dependencies.length : ℚ) / 10) * (2 / 10) := by positivity
    have : (0 : ℚ) ≤ 1 := by norm_num
    simp only [le_min_iff]
    exact ⟨this, by linarith⟩
  · simp only [complexityOf]
    exact min_le_left _ _
  · simp [calculate_complexity_scores]

/-- C10 counterexample: a document whose frontmatter block parses to the
empty mapping.  `extract_metadata` returns that (empty) mapping with the
rest of the text, although the block did not parse to a non-empty mapping,
refuting the claim's "a mapping is returned only when the block parses to
a non-empty mapping". -/
theorem C10_counterexample :
    extract_metadata yamlParseEmptyMap "---\n\x7b\x7d\n---\nbody".toList =
      (.ydict [], "\nbody".toList) ∧
    yamlParseEmptyMap "\n\x7b\x7d\n".toList = .ok (.ydict []) ∧
    (PyY.ydict [] : PyY) ≠ .ynull :=
  ⟨by decide, by decide, by decide⟩

/-- C10 amended: with the frontmatter prefix present and two delimiters
found, a null parse yields `(None, rest)` (not an empty mapping); any
mapping parse — empty or not — yields the mapping, with datetime values
converted to their ISO strings; a parse exception yields the empty mapping
with the original text; a non-mapping value is returned as-is when falsy
and sends the conversion loop into the exception path when truthy. -/
theorem C10_amended (parse : Str → Except Unit PyY) (content fmPre fm rest : Str)
    (hpre : "---".toList.isPrefixOf content = true)
    (hsplit : pySplit3 "---".toList content = some (fmPre, fm, rest)) :
    (parse fm = .ok .ynull → extract_metadata parse content = (.ynull, rest)) ∧
    (∀ l, parse fm = .ok (.ydict l) →
      extract_metadata parse content = (.ydict (l.map (fun kv => (kv.1, convVal kv.2))), rest) ∧
      ∀ kv ∈ l.map (fun kv => (kv.1, convVal kv.2)), ∀ iso, kv.2 ≠ .vdt iso) ∧
    (∀ e, parse fm = .error e → extract_metadata parse content = (.ydict [], content)) ∧
    (∀ b, parse fm = .ok (.yscalar b) →
      extract_metadata parse content = (if b then (.ydict [], content) else (.yscalar b, rest))) := by
  have hbase : ∀ y : Except Unit PyY, parse fm = y →
      extract_metadata parse content =
        (match y with
         | .error _ => ((.ydict [] : PyY), content)
         | .ok .ynull => (.ynull, rest)
         | .ok (.ydict l) => (.ydict (l.map (fun kv => (kv.1, convVal kv.2))), rest)
         | .ok (.yscalar b) => if b then ((.ydict [] : PyY), content) else (.yscalar b, rest)) := by
    intro y hy
    unfold extract_metadata
    rw [if_pos hpre, hsplit]
    show (match parse fm with
          | .error _ => ((.ydict [] : PyY), content)
          | .ok .ynull => (.ynull, rest)
          | .ok (.ydict l) => (.ydict (l.map (fun kv : Str × PyVal => (kv.1, convVal kv.2))), rest)
          | .ok (.yscalar b) => if b then ((.ydict [] : PyY), content) else (.yscalar b, rest)) = _
    rw [hy]
  refine ⟨?_, ?_, ?_, ?_⟩
  · intro h
    exact hbase _ h
  · intro l h
    constructor
    · exact hbase _ h
    · intro kv hkv iso
      simp only [List.mem_map] at hkv
      rcases hkv with ⟨kv0, _, rfl⟩
      cases kv0.2 <;> simp [convVal]
  · intro e h
    exact hbase _ h
  · intro b h
    exact hbase _ h

/-- C10 witness: the amended theorem applied to a concrete parser and
document (a null-parsing block and a datetime-valued mapping block). -/
theorem C10_amended_witness :
    ("---".toList.isPrefixOf "---\nA\n---\nrest".toList = true ∧
      pySplit3 "---".toList "---\nA\n---\nrest".toList =
        some ([], "\nA\n".toList, "\nrest".toList) ∧
      yamlParseDt "\nA\n".toList = .ok .ynull ∧
      extract_metadata yamlParseDt "---\nA\n---\nrest".toList = (.ynull, "\nrest".toList)) ∧
    ("---".toList.isPrefixOf "---\nd\n---\nr".toList = true ∧
      pySplit3 "---".toList "---\nd\n---\nr".toList = some ([], "\nd\n".toList, "\nr".toList) ∧
      yamlParseDt "\nd\n".toList = .ok (.ydict [("k".toList, .vdt "2024-01-01T00:00:00".toList)]) ∧
      extract_metadata yamlParseDt "---\nd\n---\nr".toList =
        (.ydict [("k".toList, .vstr "2024-01-01T00:00:00".toList)], "\nr".toList)) := by
  constructor
  · refine ⟨by decide, by decide, by decide, ?_⟩
    exact (C10_amended yamlParseDt "---\nA\n---\nrest".toList [] "\nA\n".toList "\nrest".toList
      (by decide) (by decide)).1 (by decide)
  · refine ⟨by decide, by decide, by decide, ?_⟩
    exact ((C10_amended yamlParseDt "---\nd\n---\nr".toList [] "\nd\n".toList "\nr".toList
      (by decide) (by decide)).2.1
        [("k".toList, PyVal.vdt "2024-01-01T00:00:00".toList)] (by decide)).1

theorem codeLoop_split (sm : Option (Nat × Str)) :
    ∀ (cbs : List Str) (content : Str) (chunks : List DocumentChunk),
      ∃ news, (codeLoop sm cbs content chunks).2 = chunks ++ news ∧
        ∀ c ∈ news, c.metadata.mtype = "code".toList := by
  intro cbs
  induction cbs with
  | nil => exact fun content chunks => ⟨[], by simp [codeLoop], by simp⟩
  | cons cb rest ih =>
    intro content chunks
    obtain ⟨news, h1, h2⟩ := ih (replaceAll cb (placeholder chunks.length) content)
      (chunks ++ [{ content := cb, metadata := mkChunkMeta sm "code".toList,
                    chunk_id := hashId cb, parent_doc := [], position := chunks.length,
                    tokens := (pySplitWs cb).length }])
    refine ⟨{ content := cb, metadata := mkChunkMeta sm "code".toList,
              chunk_id := hashId cb, parent_doc := [], position := chunks.length,
              tokens := (pySplitWs cb).length } :: news, ?_, ?_⟩
    · simp only [codeLoop, h1, List.append_assoc, List.singleton_append]
    · intro c hc
      rcases List.mem_cons.mp hc with h | h
      · rw [h]
        simp [mkChunkMeta]
      · exact h2 c h

theorem textLoop_split (sz ov : Nat) (codeBlocks : List Str) (sm : Option (Nat × Str)) :
    ∀ (ws cur : List Str) (n : Nat) (chunks : List DocumentChunk),
      ∃ news, textLoop sz ov codeBlocks sm ws cur n chunks = chunks ++ news ∧
        ∀ c ∈ news, c.metadata.mtype = "text".toList := by
  intro ws
  induction ws with
  | nil =>
    intro cur n chunks
    by_cases h : cur = []
    · exact ⟨[], by simp [textLoop, h], by simp⟩
    · refine ⟨[{ content := restoreBlocks codeBlocks (joinW cur),
                 metadata := mkChunkMeta sm "text".toList,
                 chunk_id := hashId (restoreBlocks codeBlocks (joinW cur)),
                 parent_doc := [], position := chunks.length, tokens := n }], ?_, ?_⟩
      · simp [textLoop, h]
      · intro c hc
        rcases List.mem_singleton.mp hc with rfl
        simp [mkChunkMeta]
  | cons w rest ih =>
    intro cur n chunks
    by_cases h : sz ≤ n + 1
    · obtain ⟨news, h1, h2⟩ := ih (pyTailSlice (min ov (cur ++ [w]).length) (cur ++ [w]))
        (min ov (cur ++ [w]).length)
        (chunks ++ [{ content := restoreBlocks codeBlocks (joinW (cur ++ [w])),
                      metadata := mkChunkMeta sm "text".toList,
                      chunk_id := hashId (restoreBlocks codeBlocks (joinW (cur ++ [w]))),
                      parent_doc := [], position := chunks.length, tokens := n + 1 }])
      refine ⟨{ content := restoreBlocks codeBlocks (joinW (cur ++ [w])),
                metadata := mkChunkMeta sm "text".toList,
                chunk_id := hashId (restoreBlocks codeBlocks (joinW (cur ++ [w]))),
                parent_doc := [], position := chunks.length, tokens := n + 1 } :: news, ?_, ?_⟩
      · simp only [textLoop, h, if_true]
        simp only [h1, List.append_assoc, List.singleton_append]
      · intro c hc
        rcases List.mem_cons.mp hc with hcc | hcc
        · rw [hcc]
          simp [mkChunkMeta]
        · exact h2 c hcc
    · obtain ⟨news, h1, h2⟩ := ih (cur ++ [w]) (n + 1) chunks
      refine ⟨news, ?_, h2⟩
      simp only [textLoop, h, if_false]
      exact h1

theorem codeLoop_positions (sm : Option (Nat × Str)) :
    ∀ (cbs : List Str) (content : Str) (chunks : List DocumentChunk),
      chunks.map (fun c => c.position) = List.range chunks.length →
      (codeLoop sm cbs content chunks).2.map (fun c => c.position) =
        List.range (codeLoop sm cbs content chunks).2.length := by
  intro cbs
  induction cbs with
  | nil => intro content chunks h; simpa [codeLoop] using h
  | cons cb rest ih =>
    intro content chunks h
    simp only [codeLoop]
    apply ih
    simp only [List.map_append, List.length_append, h, List.map_cons, List.map_nil,
      List.length_cons, List.length_nil]
    rw [← List.range_succ]

theorem textLoop_positions (sz ov : Nat) (codeBlocks : List Str) (sm : Option (Nat × Str)) :
    ∀ (ws cur : List Str) (n : Nat) (chunks : List DocumentChunk),
      chunks.map (fun c => c.position) = List.range chunks.length →
      (textLoop sz ov codeBlocks sm ws cur n chunks).map (fun c => c.position) =
        List.range (textLoop sz ov codeBlocks sm ws cur n chunks).length := by
  intro ws
  induction ws with
  | nil =>
    intro cur n chunks h
    by_cases hc : cur = []
    · simpa [textLoop, hc] using h
    · simp only [textLoop, hc, ne_eq, not_false_iff, if_true, List.map_append,
        List.length_append, h, List.map_cons, List.map_nil, List.length_cons, List.length_nil]
      rw [← List.range_succ]
  | cons w rest ih =>
    intro cur n chunks h
    by_cases hs : sz ≤ n + 1
    · simp only [textLoop, hs, if_true]
      apply ih
      simp only [List.map_append, List.length_append, h, List.map_cons, List.map_nil,
        List.length_cons, List.length_nil]
      rw [← List.range_succ]
    · simp only [textLoop, hs, if_false]
      exact ih _ _ _ h

theorem csc_positions (sz ov : Nat) (content : Str) (sm : Option (Nat × Str)) :
    (create_semantic_chunks sz ov content sm).map (fun c => c.position) =
      List.range (create_semantic_chunks sz ov content sm).length := by
  unfold create_semantic_chunks
  by_cases h : pyStrip content = []
  · simp [h]
  · simp only [h, if_false]
    apply textLoop_positions
    apply codeLoop_positions
    simp

/-- C2 counterexample: a two-section document.  The position counter of
`_create_semantic_chunks` restarts at each section, so the two chunks carry
positions [0, 0], not 0..N-1. -/
theorem C2_counterexample :
    (structure_document 1000 200 "# A\nh\n# B\nw".toList {}).map (fun c => c.position) ≠
      List.range (structure_document 1000 200 "# A\nh\n# B\nw".toList {}).length := by
  decide

/-- C2 amended: `position` values restart at 0 for each section: a
document's position sequence is the concatenation of `0..m_s-1` over its
sections (contiguous within each section's run of chunks, not across the
document). -/
theorem C2_amended (sz ov : Nat) (content : Str) (md : DocMeta) :
    (structure_document sz ov content md).map (fun c => c.position) =
      (parse_sections content).bind
        (fun s => List.range (create_semantic_chunks sz ov s.content s.smeta).length) := by
  unfold structure_document
  rw [List.map_map]
  have : ((fun c : DocumentChunk => c.position) ∘
      (fun ch : DocumentChunk => { ch with metadata :=
        { ch.metadata with source_url := md.url, scraped_at := md.scraped_at, doc_title := md.title } })) =
      (fun c : DocumentChunk => c.position) := rfl
  rw [this, List.map_bind]
  apply List.bind_congr
  intro s _
  exact csc_positions sz ov s.content s.smeta

theorem codeLoop_mem_content (sm : Option (Nat × Str)) :
    ∀ (cbs : List Str) (content : Str) (chunks : List DocumentChunk) (b : Str),
      b ∈ cbs → ∃ ch ∈ (codeLoop sm cbs content chunks).2,
        ch.content = b ∧ ch.metadata.mtype = "code".toList := by
  intro cbs
  induction cbs with
  | nil => intro content chunks b hb; cases hb
  | cons cb rest ih =>
    intro content chunks b hb
    rcases List.mem_cons.mp hb with rfl | hb2
    · obtain ⟨news, h1, _⟩ := codeLoop_split sm rest
        (replaceAll b (placeholder chunks.length) content)
        (chunks ++ [{ content := b, metadata := mkChunkMeta sm "code".toList,
                      chunk_id := hashId b, parent_doc := [], position := chunks.length,
                      tokens := (pySplitWs b).length }])
      refine ⟨{ content := b, metadata := mkChunkMeta sm "code".toList,
                chunk_id := hashId b, parent_doc := [], position := chunks.length,
                tokens := (pySplitWs b).length }, ?_, rfl, by simp [mkChunkMeta]⟩
      simp only [codeLoop, h1]
      simp
    · obtain ⟨ch, hmem, hcc⟩ := ih (replaceAll cb (placeholder chunks.length) content)
        (chunks ++ [{ content := cb, metadata := mkChunkMeta sm "code".toList,
                      chunk_id := hashId cb, parent_doc := [], position := chunks.length,
                      tokens := (pySplitWs cb).length }]) b hb2
      exact ⟨ch, by simpa [codeLoop] using hmem, hcc⟩

/-- C3 counterexample: a document with one fenced code block surrounded by
prose.  The block is emitted as its own code chunk, but the placeholder
restoration also re-inserts its full text into the surrounding text chunk,
so a text-typed chunk contains the code block's content. -/
theorem C3_counterexample :
    (structure_document 1000 200 "a\n```\nc\n```\nb".toList {}).map
        (fun c => (c.metadata.mtype, c.content)) =
      [("code".toList, "```\nc\n```".toList), ("text".toList, "a ```\nc\n``` b".toList)] ∧
    subOccurs "```\nc\n```".toList "a ```\nc\n``` b".toList = true :=
  ⟨by decide, by decide⟩

/-- C3 amended: every fenced code block found in a (non-blank) section is
the full content of some chunk tagged code; in addition (per the
counterexample) the block's text is restored from its placeholder into the
surrounding text chunk(s), so it may also occur inside a text-typed
chunk. -/
theorem C3_amended (sz ov : Nat) (content : Str) (sm : Option (Nat × Str)) (b : Str)
    (hb : b ∈ findAllRE fenceRE content) (hne : pyStrip content ≠ []) :
    ∃ ch ∈ create_semantic_chunks sz ov content sm,
      ch.content = b ∧ ch.metadata.mtype = "code".toList := by
  unfold create_semantic_chunks
  rw [if_neg hne]
  obtain ⟨ch, hmem, hcc⟩ := codeLoop_mem_content sm (findAllRE fenceRE content) content [] b hb
  obtain ⟨news, h1, _⟩ := textLoop_split sz ov (findAllRE fenceRE content) sm
    (pySplitWs (codeLoop sm (findAllRE fenceRE content) content []).1) [] 0
    (codeLoop sm (findAllRE fenceRE content) content []).2
  exact ⟨ch, by rw [h1]; exact List.mem_append_left _ hmem, hcc⟩

/-- C3 witness: the amended theorem at the counterexample document. -/
theorem C3_amended_witness :
    ("```\nc\n```".toList ∈ findAllRE fenceRE "a\n```\nc\n```\nb".toList ∧
      pyStrip "a\n```\nc\n```\nb".toList ≠ []) ∧
    ∃ ch ∈ create_semantic_chunks 1000 200 "a\n```\nc\n```\nb".toList none,
      ch.content = "```\nc\n```".toList ∧ ch.metadata.mtype = "code".toList :=
  ⟨⟨by decide, by decide⟩,
    C3_amended 1000 200 "a\n```\nc\n```\nb".toList none "```\nc\n```".toList
      (by decide) (by decide)⟩

theorem append_code_first (a b : List DocumentChunk)
    (ha : ∀ c ∈ a, c.metadata.mtype = "code".toList)
    (hb : ∀ c ∈ b, c.metadata.mtype = "text".toList)
    (i j : Nat) (hij : i ≤ j) (hj : j < (a ++ b).length)
    (hcode : ((a ++ b).getD j dfltChunk).metadata.mtype = "code".toList) :
    ((a ++ b).getD i dfltChunk).metadata.mtype = "code".toList := by
  have hi : i < (a ++ b).length := lt_of_le_of_lt hij hj
  rw [List.getD_eq_getElem _ _ hj] at hcode
  rw [List.getD_eq_getElem _ _ hi]
  rcases Nat.lt_or_ge j a.length with hlt | hge
  · have hilt : i < a.length := lt_of_le_of_lt hij hlt
    have heq : (a ++ b)[i] = a[i] := List.getElem_append_left hilt
    rw [heq]
    exact ha _ (List.getElem_mem hilt)
  · exfalso
    have hlen : j < a.length + b.length := by
      have := List.length_append a b
      omega
    have hidx : j - a.length < b.length := by omega
    have heq : (a ++ b)[j] = b[j - a.length] := List.getElem_append_right hge
    rw [heq] at hcode
    have htext := hb _ (List.getElem_mem hidx)
    rw [hcode] at htext
    exact absurd htext (by decide)

/-- C9: within a section, every chunk tagged code precedes every chunk
tagged text: the code-block loop appends all code chunks before the word
loop appends any text chunk, so a code-tagged chunk at position j forces
every position i ≤ j to be code-tagged as well. -/
theorem C9_code_before_text (sz ov : Nat) (content : Str) (sm : Option (Nat × Str))
    (i j : Nat) (hij : i ≤ j) (hj : j < (create_semantic_chunks sz ov content sm).length)
    (hcode : ((create_semantic_chunks sz ov content sm).getD j dfltChunk).metadata.mtype =
      "code".toList) :
    ((create_semantic_chunks sz ov content sm).getD i dfltChunk).metadata.mtype =
      "code".toList := by
  by_cases hstrip : pyStrip content = []
  · exfalso
    rw [create_semantic_chunks, if_pos hstrip] at hj
    exact absurd hj (by simp)
  · obtain ⟨codePart, hc1, hc2⟩ := codeLoop_split sm (findAllRE fenceRE content) content []
    obtain ⟨textPart, ht1, ht2⟩ := textLoop_split sz ov (findAllRE fenceRE content) sm
      (pySplitWs (codeLoop sm (findAllRE fenceRE content) content []).1) [] 0
      (codeLoop sm (findAllRE fenceRE content) content []).2
    have hsplit : create_semantic_chunks sz ov content sm = codePart ++ textPart := by
      rw [create_semantic_chunks, if_neg hstrip]
      rw [ht1, hc1]
      simp
    rw [hsplit] at hj hcode ⊢
    exact append_code_first codePart textPart hc2 ht2 i j hij hj hcode

/-- C9 witness: a section with two fenced code blocks; both leading chunks
are code-tagged, and the theorem transports code-taggedness from index 1 to
index 0. -/
theorem C9_witness :
    ((0 : Nat) ≤ 1 ∧
      1 < (create_semantic_chunks 1000 200 "```\na\n```\nx\n```\nb\n```".toList none).length ∧
      ((create_semantic_chunks 1000 200 "```\na\n```\nx\n```\nb\n```".toList none).getD 1
        dfltChunk).metadata.mtype = "code".toList) ∧
    ((create_semantic_chunks 1000 200 "```\na\n```\nx\n```\nb\n```".toList none).getD 0
      dfltChunk).metadata.mtype = "code".toList :=
  ⟨⟨by decide, by decide, by decide⟩,
    C9_code_before_text 1000 200 "```\na\n```\nx\n```\nb\n```".toList none 0 1
      (by decide) (by decide) (by decide)⟩

theorem textLoop_eq_emit (sz ov : Nat) (codeBlocks : List Str) (sm : Option (Nat × Str)) :
    ∀ (ws cur : List Str) (n : Nat) (chunks : List DocumentChunk),
      textLoop sz ov codeBlocks sm ws cur n chunks =
        chunks ++ emitChunks codeBlocks sm chunks.length (wordLoopW sz ov ws cur n) := by
  intro ws
  induction ws with
  | nil =>
    intro cur n chunks
    by_cases h : cur = []
    · simp [textLoop, wordLoopW, h, emitChunks]
    · have hne : cur.isEmpty = false := by
        cases cur with
        | nil => exact absurd rfl h
        | cons a l => rfl
      simp [textLoop, wordLoopW, h, hne, emitChunks, mkTextChunk]
  | cons w rest ih =>
    intro cur n chunks
    by_cases h : sz ≤ n + 1
    · simp only [textLoop, wordLoopW, h, if_true]
      rw [ih]
      simp only [List.length_append, List.length_cons, List.length_nil, emitChunks,
        mkTextChunk]
      rw [List.append_assoc]
      rfl
    · simp only [textLoop, wordLoopW, h, if_false]
      exact ih _ _ _

theorem emitChunks_map_content (codeBlocks : List Str) (sm : Option (Nat × Str)) :
    ∀ (l : List (List Str × Nat)) (base : Nat),
      (emitChunks codeBlocks sm base l).map (fun ch => ch.content) =
        l.map (fun p => restoreBlocks codeBlocks (joinW p.1)) := by
  intro l
  induction l with
  | nil => intro base; rfl
  | cons p rest ih =>
    intro base
    cases p
    simp [emitChunks, mkTextChunk, ih]

theorem restoreBlocks_nil (s : Str) : restoreBlocks [] s = s := rfl

theorem wordLoopW_run {α : Type} (sz ov : Nat) :
    ∀ (rest cur : List α), cur.length < sz → sz ≤ cur.length + rest.length →
      wordLoopW sz ov rest cur cur.length =
        (cur ++ rest.take (sz - cur.length), sz) ::
          wordLoopW sz ov (rest.drop (sz - cur.length))
            (pyTailSlice (min ov sz) (cur ++ rest.take (sz - cur.length))) (min ov sz) := by
  intro rest
  induction rest with
  | nil =>
    intro cur h1 h2
    exfalso
    simp at h2
    omega
  | cons w ws ih =>
    intro cur h1 h2
    by_cases h : sz ≤ cur.length + 1
    · have hsz : sz = cur.length + 1 := by omega
      have hk : sz - cur.length = 1 := by omega
      have hlen : (cur ++ [w]).length = sz := by simp; omega
      simp only [wordLoopW, h, if_true]
      rw [hk]
      have ht1 : List.take 1 (w :: ws) = [w] := rfl
      have hd1 : List.drop 1 (w :: ws) = ws := rfl
      rw [ht1, hd1, hlen, hsz]
    · have hlt : cur.length + 1 < sz := by omega
      have hk : sz - cur.length = (sz - (cur ++ [w]).length) + 1 := by simp; omega
      simp only [wordLoopW, h, if_false]
      have hn : cur.length + 1 = (cur ++ [w]).length := by simp
      rw [hn, ih (cur ++ [w]) (by simp; omega) (by simp at h2 ⊢; omega)]
      rw [hk]
      simp only [List.take_succ_cons, List.drop_succ_cons]
      rw [List.append_assoc]
      rfl

theorem wordLoopW_end {α : Type} (sz ov : Nat) :
    ∀ (rest cur : List α) (n : Nat), n = cur.length → cur.length + rest.length < sz →
      wordLoopW sz ov rest cur n =
        if (cur ++ rest).isEmpty then [] else [(cur ++ rest, cur.length + rest.length)] := by
  intro rest
  induction rest with
  | nil =>
    intro cur n hn h
    subst hn
    simp only [wordLoopW, List.append_nil, List.length_nil, Nat.add_zero]
  | cons w ws ih =>
    intro cur n hn h
    subst hn
    have hno : ¬sz ≤ cur.length + 1 := by simp at h; omega
    simp only [wordLoopW, hno, if_false]
    have hn2 : cur.length + 1 = (cur ++ [w]).length := by simp
    rw [hn2, ih (cur ++ [w]) ((cur ++ [w]).length) rfl (by simp at h ⊢; omega)]
    have he : cur ++ [w] ++ ws = cur ++ w :: ws := by simp
    rw [he]
    have hl : (cur ++ [w]).length + ws.length = cur.length + (w :: ws).length := by simp; omega
    rw [hl]

theorem pyTailSlice_drop {α : Type} (k : Nat) (l : List α) (hk : k ≠ 0) :
    pyTailSlice k l = l.drop (l.length - k) := by
  simp [pyTailSlice, hk]

theorem wordLoopW_2500 {α : Type} (ws : List α) (h : ws.length = 2500) :
    wordLoopW 1000 200 ws [] 0 =
      [(ws.take 1000, 1000), ((ws.drop 800).take 1000, 1000), (ws.drop 1600, 900)] := by
  have hlen1 : (ws.take 1000).length = 1000 := by
    rw [List.length_take, h]
    omega
  have hseed1 : pyTailSlice 200 (ws.take 1000) = (ws.drop 800).take 200 := by
    rw [pyTailSlice_drop 200 _ (by norm_num), hlen1]
    norm_num [List.drop_take]
  have s1 : wordLoopW 1000 200 ws ([] : List α) 0 =
      (ws.take 1000, 1000) ::
        wordLoopW 1000 200 (ws.drop 1000) ((ws.drop 800).take 200) 200 := by
    have hr := wordLoopW_run (α := α) 1000 200 ws [] (by simp) (by simp [h])
    simp only [List.length_nil, Nat.sub_zero, List.nil_append] at hr
    norm_num at hr
    rw [hr, hseed1]
  have hc1len : ((ws.drop 800).take 200).length = 200 := by
    rw [List.length_take, List.length_drop, h]
    omega
  have hchunk2 : (ws.drop 800).take 200 ++ (ws.drop 1000).take 800 = (ws.drop 800).take 1000 := by
    have he : (ws.drop 800).take 1000 = (ws.drop 800).take 200 ++ ((ws.drop 800).drop 200).take 800 := by
      rw [← List.take_add]
    rw [List.drop_drop] at he
    norm_num at he
    rw [he]
  have hc2len : ((ws.drop 800).take 1000).length = 1000 := by
    rw [List.length_take, List.length_drop, h]
    omega
  have hseed2 : pyTailSlice 200 ((ws.drop 800).take 1000) = (ws.drop 1600).take 200 := by
    rw [pyTailSlice_drop 200 _ (by norm_num), hc2len]
    rw [List.drop_take, List.drop_drop]
  have s2 : wordLoopW 1000 200 (ws.drop 1000) ((ws.drop 800).take 200) 200 =
      ((ws.drop 800).take 1000, 1000) ::
        wordLoopW 1000 200 (ws.drop 1800) ((ws.drop 1600).take 200) 200 := by
    have hr := wordLoopW_run (α := α) 1000 200 (ws.drop 1000) ((ws.drop 800).take 200)
      (by rw [hc1len]; norm_num)
      (by rw [hc1len, List.length_drop, h]; norm_num)
    rw [hc1len] at hr
    norm_num at hr
    rw [hr]
    rw [hchunk2, hseed2]
  have hc3len : ((ws.drop 1600).take 200).length = 200 := by
    rw [List.length_take, List.length_drop, h]
    omega
  have s3 : wordLoopW 1000 200 (ws.drop 1800) ((ws.drop 1600).take 200) 200 =
      [(ws.drop 1600, 900)] := by
    have hr := wordLoopW_end (α := α) 1000 200 (ws.drop 1800) ((ws.drop 1600).take 200) 200
      (by rw [hc3len]) (by rw [hc3len, List.length_drop, h]; norm_num)
    have hrest : ws.drop 1800 = (ws.drop 1600).drop 200 := by
      rw [List.drop_drop]
    have happ : (ws.drop 1600).take 200 ++ ws.drop 1800 = ws.drop 1600 := by
      rw [hrest, List.take_append_drop]
    rw [happ] at hr
    have hne : (ws.drop 1600).isEmpty = false := by
      have h9 : (ws.drop 1600).length = 900 := by rw [List.length_drop, h]
      cases hcase : ws.drop 1600 with
      | nil => rw [hcase] at h9; simp at h9
      | cons a l => rfl
    rw [hne] at hr
    simp only [Bool.false_eq_true, if_false] at hr
    rw [hr, hc3len, List.length_drop, h]
  rw [s1, s2, s3]

theorem allWs_splitAcc_nil : ∀ s : Str, (∀ c ∈ s, isWs c = true) → pySplitWsAcc [] s = [] := by
  intro s
  induction s with
  | nil => intro _; rfl
  | cons c rest ih =>
    intro h
    have hc : isWs c = true := h c (by simp)
    simp only [pySplitWsAcc, hc, if_true, if_pos rfl]
    exact ih (fun x hx => h x (by simp [hx]))

theorem pyStrip_nil_split_nil (s : Str) (h : pyStrip s = []) : pySplitWs s = [] := by
  have h1 : (s.dropWhile isWs).reverse.dropWhile isWs = [] := by
    have := congrArg List.reverse h
    simpa [pyStrip] using this
  have h2 : ∀ x ∈ s.dropWhile isWs, isWs x = true := by
    intro x hx
    exact List.dropWhile_eq_nil_iff.mp h1 x (by simpa using hx)
  have hall : ∀ c ∈ s, isWs c = true := by
    intro c hc
    rw [← List.takeWhile_append_dropWhile isWs s] at hc
    rcases List.mem_append.mp hc with h3 | h3
    · exact List.mem_takeWhile_imp h3
    · exact h2 c h3
  exact allWs_splitAcc_nil s hall

theorem csc_no_code (sz ov : Nat) (content : Str) (sm : Option (Nat × Str))
    (hcb : findAllRE fenceRE content = []) (hne : pyStrip content ≠ []) :
    create_semantic_chunks sz ov content sm =
      emitChunks [] sm 0 (wordLoopW sz ov (pySplitWs content) [] 0) := by
  unfold create_semantic_chunks
  rw [if_neg hne, hcb]
  rw [textLoop_eq_emit]
  rfl

theorem pySplitWsAcc_word : ∀ (w acc rest : Str), (∀ c ∈ w, isWs c = false) →
    pySplitWsAcc acc (w ++ rest) = pySplitWsAcc (w.reverse ++ acc) rest := by
  intro w
  induction w with
  | nil => intro acc rest _; simp
  | cons c w2 ih =>
    intro acc rest h
    have hc : isWs c = false := h c (by simp)
    show pySplitWsAcc acc (c :: (w2 ++ rest)) = _
    simp only [pySplitWsAcc, hc, Bool.false_eq_true, if_false]
    rw [ih (c :: acc) rest (fun x hx => h x (by simp [hx]))]
    simp [List.append_assoc]

theorem splitWs_word_nil (w : Str) (hne : w ≠ []) (h : ∀ c ∈ w, isWs c = false) :
    pySplitWs w = [w] := by
  have h1 := pySplitWsAcc_word w [] [] h
  simp only [List.append_nil] at h1
  show pySplitWsAcc [] w = [w]
  rw [h1]
  have hrev : w.reverse ≠ [] := by simp [hne]
  simp [pySplitWsAcc, hrev]

theorem joinW_cons_cons (a b : Str) (t : List Str) :
    joinW (a :: b :: t) = a ++ ' ' :: joinW (b :: t) := rfl

theorem splitWs_joinW : ∀ ws : List Str, (∀ w ∈ ws, w ≠ [] ∧ ∀ c ∈ w, isWs c = false) →
    pySplitWs (joinW ws) = ws := by
  intro ws
  induction ws with
  | nil => intro _; rfl
  | cons a t ih =>
    intro h
    have h1 := h a (by simp)
    cases t with
    | nil =>
      have hj : joinW [a] = a := by
        show a ++ ([] : Str) = a
        simp
      rw [hj]
      exact splitWs_word_nil a h1.1 h1.2
    | cons b t2 =>
      rw [joinW_cons_cons]
      show pySplitWsAcc [] (a ++ ' ' :: joinW (b :: t2)) = a :: b :: t2
      rw [pySplitWsAcc_word a [] _ h1.2]
      simp only [List.append_nil]
      have hrev : a.reverse ≠ [] := by simp [h1.1]
      have hsp : isWs ' ' = true := rfl
      simp only [pySplitWsAcc, hsp, if_true, hrev, Bool.false_eq_true, if_false,
        List.reverse_reverse, if_neg hrev]
      rw [show pySplitWsAcc [] (joinW (b :: t2)) = pySplitWs (joinW (b :: t2)) from rfl]
      rw [ih (fun w hw => h w (by simp [hw]))]

theorem pySplitWsAcc_wordish : ∀ (s acc : Str), (∀ c ∈ acc, isWs c = false) →
    ∀ w ∈ pySplitWsAcc acc s, w ≠ [] ∧ ∀ c ∈ w, isWs c = false := by
  intro s
  induction s with
  | nil =>
    intro acc hacc w hw
    by_cases h : acc = []
    · simp [pySplitWsAcc, h] at hw
    · simp only [pySplitWsAcc, h, if_false, Bool.false_eq_true] at hw
      rcases List.mem_singleton.mp hw with rfl
      constructor
      · simp [h]
      · intro c hc
        exact hacc c (by simpa using hc)
  | cons c rest ih =>
    intro acc hacc w hw
    by_cases hc : isWs c = true
    · simp only [pySplitWsAcc, hc, if_true] at hw
      by_cases h : acc = []
      · rw [if_pos h] at hw
        exact ih [] (by simp) w hw
      · rw [if_neg h] at hw
        rcases List.mem_cons.mp hw with rfl | hw2
        · constructor
          · simp [h]
          · intro x hx
            exact hacc x (by simpa using hx)
        · exact ih [] (by simp) w hw2
    · simp only [pySplitWsAcc, hc] at hw
      refine ih (c :: acc) ?_ w hw
      intro x hx
      rcases List.mem_cons.mp hx with rfl | hx2
      · simpa using hc
      · exact hacc x hx2

theorem pySplitWs_wordish (s : Str) :
    ∀ w ∈ pySplitWs s, w ≠ [] ∧ ∀ c ∈ w, isWs c = false :=
  pySplitWsAcc_wordish s [] (by simp)

theorem mem_pyTailSlice {α : Type} (k : Nat) (l : List α) (x : α)
    (hx : x ∈ pyTailSlice k l) : x ∈ l := by
  by_cases h : k = 0
  · simpa [pyTailSlice, h] using hx
  · rw [pyTailSlice_drop k l h] at hx
    exact List.mem_of_mem_drop hx

theorem wordLoopW_words (sz ov : Nat) (P : Str → Prop) :
    ∀ (rest cur : List Str) (n : Nat), (∀ x ∈ cur, P x) → (∀ x ∈ rest, P x) →
      ∀ q ∈ wordLoopW sz ov rest cur n, ∀ x ∈ q.1, P x := by
  intro rest
  induction rest with
  | nil =>
    intro cur n hcur _ q hq x hx
    by_cases h : cur.isEmpty
    · simp [wordLoopW, h] at hq
    · simp only [wordLoopW, h, Bool.false_eq_true, if_false] at hq
      rcases List.mem_singleton.mp hq with rfl
      exact hcur x hx
  | cons w ws ih =>
    intro cur n hcur hrest q hq x hx
    have hcur2 : ∀ y ∈ cur ++ [w], P y := by
      intro y hy
      rcases List.mem_append.mp hy with h1 | h1
      · exact hcur y h1
      · rcases List.mem_singleton.mp h1 with rfl
        exact hrest y (by simp)
    by_cases h : sz ≤ n + 1
    · simp only [wordLoopW, h, if_true] at hq
      rcases List.mem_cons.mp hq with rfl | hq2
      · exact hcur2 x hx
      · refine ih (pyTailSlice (min ov (cur ++ [w]).length) (cur ++ [w]))
          (min ov (cur ++ [w]).length) ?_ (fun y hy => hrest y (by simp [hy])) q hq2 x hx
        intro y hy
        exact hcur2 y (mem_pyTailSlice _ _ _ hy)
    · simp only [wordLoopW, h, if_false] at hq
      exact ih (cur ++ [w]) (n + 1) hcur2 (fun y hy => hrest y (by simp [hy])) q hq x hx

theorem wordLoopW_chain (sz ov : Nat) (hov : 1 ≤ ov) :
    ∀ (rest cur : List Str) (n : Nat),
      List.Chain' (fun a b : List Str × Nat =>
          b.1.take (min ov a.1.length) = a.1.drop (a.1.length - min ov a.1.length))
        (wordLoopW sz ov rest cur n) ∧
      ∀ q, (wordLoopW sz ov rest cur n).head? = some q → ∃ t, q.1 = cur ++ t := by
  intro rest
  induction rest with
  | nil =>
    intro cur n
    constructor
    · by_cases h : cur.isEmpty <;> simp [wordLoopW, h]
    · intro q hq
      by_cases h : cur.isEmpty
      · simp [wordLoopW, h] at hq
      · simp only [wordLoopW, h, Bool.false_eq_true, if_false, List.head?_cons,
          Option.some.injEq] at hq
        exact ⟨[], by rw [← hq]; simp⟩
  | cons w ws ih =>
    intro cur n
    by_cases h : sz ≤ n + 1
    · obtain ⟨chainT, headT⟩ := ih (pyTailSlice (min ov (cur ++ [w]).length) (cur ++ [w]))
        (min ov (cur ++ [w]).length)
      constructor
      · simp only [wordLoopW, h, if_true]
        rw [List.chain'_cons']
        refine ⟨?_, chainT⟩
        intro y hy
        obtain ⟨t, hyt⟩ := headT y hy
        have hm1 : 1 ≤ min ov (cur ++ [w]).length := by
          rw [Nat.le_min]
          constructor
          · exact hov
          · simp
        have hseed : pyTailSlice (min ov (cur ++ [w]).length) (cur ++ [w]) =
            (cur ++ [w]).drop ((cur ++ [w]).length - min ov (cur ++ [w]).length) :=
          pyTailSlice_drop _ _ (by omega)
        have hslen : (pyTailSlice (min ov (cur ++ [w]).length) (cur ++ [w])).length =
            min ov (cur ++ [w]).length := by
          rw [hseed, List.length_drop]
          have := Nat.min_le_right ov (cur ++ [w]).length
          omega
        set s0 := pyTailSlice (min ov (cur ++ [w]).length) (cur ++ [w]) with hs0def
        rw [hyt, ← hslen, List.take_left, hslen]
        exact hseed
      · intro q hq
        simp only [wordLoopW, h, if_true, List.head?_cons, Option.some.injEq] at hq
        exact ⟨[w], by rw [← hq]⟩
    · obtain ⟨chainT, headT⟩ := ih (cur ++ [w]) (n + 1)
      constructor
      · simp only [wordLoopW, h, if_false]
        exact chainT
      · intro q hq
        simp only [wordLoopW, h, if_false] at hq
        obtain ⟨t, ht⟩ := headT q hq
        exact ⟨[w] ++ t, by rw [ht]; simp⟩

/-- C5 counterexample: with `chunk_overlap = 0`, the Python slice
`current_chunk[-0:]` keeps the whole closed chunk, so the next chunk is
seeded with every word of the previous chunk instead of
`min(overlap, len) = 0` words: on three words with `chunk_size = 2` the
second chunk is "a b c" where the claim predicts "c". -/
theorem C5_counterexample :
    (create_semantic_chunks 2 0 "a b c".toList none).map (fun c => c.content) =
      ["a b".toList, "a b c".toList] ∧
    ("a b c".toList : Str) ≠ "c".toList :=
  ⟨by decide, by decide⟩

/-- C5 amended: (1) a section with no code fences whose text splits into
exactly 2500 words, chunked with size 1000 and overlap 200, yields exactly
the three text chunks words 1-1000, 801-1800 and 1601-2500 (so chunks 2 and
3 each begin with the previous chunk's last 200 words); (2) for every
positive configured overlap, consecutive chunks of a fence-free section
overlap by exactly the last min(overlap, previous chunk's word count) words
of the previous chunk.  (With overlap 0 the code seeds the entire previous
chunk — see the counterexample.) -/
theorem C5_amended :
    (∀ (content : Str) (sm : Option (Nat × Str)),
      findAllRE fenceRE content = [] →
      (pySplitWs content).length = 2500 →
      (create_semantic_chunks 1000 200 content sm).map (fun c => c.content) =
        [joinW ((pySplitWs content).take 1000),
         joinW (((pySplitWs content).drop 800).take 1000),
         joinW ((pySplitWs content).drop 1600)]) ∧
    (∀ (sz ov : Nat) (content : Str) (sm : Option (Nat × Str)),
      1 ≤ ov →
      findAllRE fenceRE content = [] →
      List.Chain' (fun a b : DocumentChunk =>
        (pySplitWs b.content).take (min ov (pySplitWs a.content).length) =
          (pySplitWs a.content).drop
            ((pySplitWs a.content).length - min ov (pySplitWs a.content).length))
        (create_semantic_chunks sz ov content sm)) := by
  constructor
  · intro content sm hcb hlen
    have hne : pyStrip content ≠ [] := by
      intro hnil
      rw [pyStrip_nil_split_nil content hnil] at hlen
      simp at hlen
    rw [csc_no_code 1000 200 content sm hcb hne, emitChunks_map_content,
      wordLoopW_2500 _ hlen]
    simp [restoreBlocks_nil]
  · intro sz ov content sm hov hcb
    by_cases hne : pyStrip content = []
    · rw [create_semantic_chunks, if_pos hne]
      simp
    · rw [csc_no_code sz ov content sm hcb hne]
      have hwordish : ∀ q ∈ wordLoopW sz ov (pySplitWs content) [] 0, ∀ x ∈ q.1,
          x ≠ [] ∧ ∀ c ∈ x, isWs c = false :=
        wordLoopW_words sz ov _ _ [] 0 (by simp) (pySplitWs_wordish content)
      have hmap : (emitChunks [] sm 0 (wordLoopW sz ov (pySplitWs content) [] 0)).map
          (fun ch => pySplitWs ch.content) =
          (wordLoopW sz ov (pySplitWs content) [] 0).map (fun p => p.1) := by
        have h1 : (emitChunks [] sm 0 (wordLoopW sz ov (pySplitWs content) [] 0)).map
            (fun ch => pySplitWs ch.content) =
            ((emitChunks [] sm 0 (wordLoopW sz ov (pySplitWs content) [] 0)).map
              (fun ch => ch.content)).map pySplitWs := by
          rw [List.map_map]
          rfl
        rw [h1, emitChunks_map_content, List.map_map]
        apply List.map_congr_left
        intro q hq
        show pySplitWs (restoreBlocks [] (joinW q.1)) = q.1
        rw [restoreBlocks_nil]
        exact splitWs_joinW q.1 (hwordish q hq)
      have hchain := (wordLoopW_chain sz ov hov (pySplitWs content) [] 0).1
      have hchain2 : List.Chain' (fun x y : List Str =>
          y.take (min ov x.length) = x.drop (x.length - min ov x.length))
          ((wordLoopW sz ov (pySplitWs content) [] 0).map (fun p => p.1)) :=
        (List.chain'_map (fun p : List Str × Nat => p.1)).mpr hchain
      rw [← hmap] at hchain2
      exact (List.chain'_map (fun ch : DocumentChunk => pySplitWs ch.content)).mp hchain2

theorem joinW_chars : ∀ (ws : List Str) (c : Char), c ∈ joinW ws → c = ' ' ∨ ∃ w ∈ ws, c ∈ w := by
  intro ws
  induction ws with
  | nil => intro c hc; cases hc
  | cons a t ih =>
    intro c hc
    cases t with
    | nil =>
      right
      refine ⟨a, by simp, ?_⟩
      have : joinW [a] = a := by
        show a ++ ([] : Str) = a
        simp
      rwa [this] at hc
    | cons b t2 =>
      rw [joinW_cons_cons] at hc
      rcases List.mem_append.mp hc with h1 | h1
      · exact Or.inr ⟨a, by simp, h1⟩
      · rcases List.mem_cons.mp h1 with rfl | h2
        · exact Or.inl rfl
        · rcases ih c h2 with h3 | ⟨w, hw, hcw⟩
          · exact Or.inl h3
          · exact Or.inr ⟨w, by simp [hw], hcw⟩

theorem fence_no_match (last : Option Char) (c : Char) (rest : Str) (hc : c ≠ '`') :
    matchRE fenceRE last (c :: rest) = [] := by
  have hpre : ("```".toList).isPrefixOf (c :: rest) = false := by
    show (('`' == c) && (['`', '`'].isPrefixOf rest)) = false
    have : ('`' == c) = false := by
      rw [beq_eq_false_iff_ne]
      exact fun h => hc h.symm
    rw [this, Bool.false_and]
  show ((matchRE (strRE "```") last (c :: rest)).bind _) = []
  rw [show matchRE (strRE "```") last (c :: rest) =
    (if ("```".toList).isPrefixOf (c :: rest) = true then
      [(litLast "```".toList last, (c :: rest).drop ("```".toList).length)] else []) from rfl]
  rw [hpre]
  rfl

theorem no_backtick_no_fence : ∀ (fuel : Nat) (last : Option Char) (s : Str),
    (∀ c ∈ s, c ≠ '`') → findAllFuel fenceRE fuel last s = [] := by
  intro fuel
  induction fuel with
  | zero =>
    intro last s _
    cases s <;> rfl
  | succ n ih =>
    intro last s h
    cases s with
    | nil => rfl
    | cons c rest =>
      have hm : matchRE fenceRE last (c :: rest) = [] :=
        fence_no_match last c rest (h c (by simp))
      show (match (matchRE fenceRE last (c :: rest)).head? with
            | some s0 =>
              if s0.2.length < (c :: rest).length then
                ((c :: rest).take ((c :: rest).length - s0.2.length)) ::
                  findAllFuel fenceRE n s0.1 s0.2
              else findAllFuel fenceRE n (some c) rest
            | none => findAllFuel fenceRE n (some c) rest) = []
      rw [hm]
      exact ih (some c) rest (fun x hx => h x (by simp [hx]))

/-- C5 witness: the amended theorem applied to a concrete 2500-word
section (part 1) and a concrete three-word section with overlap 1
(part 2). -/
theorem C5_amended_witness :
    (findAllRE fenceRE c2500 = [] ∧ (pySplitWs c2500).length = 2500 ∧
      (create_semantic_chunks 1000 200 c2500 none).map (fun c => c.content) =
        [joinW ((pySplitWs c2500).take 1000), joinW (((pySplitWs c2500).drop 800).take 1000),
         joinW ((pySplitWs c2500).drop 1600)]) ∧
    ((1 : Nat) ≤ 1 ∧ findAllRE fenceRE "a b c".toList = [] ∧
      List.Chain' (fun a b : DocumentChunk =>
        (pySplitWs b.content).take (min 1 (pySplitWs a.content).length) =
          (pySplitWs a.content).drop
            ((pySplitWs a.content).length - min 1 (pySplitWs a.content).length))
        (create_semantic_chunks 2 1 "a b c".toList none)) := by
  have hwordish : ∀ w ∈ List.replicate 2500 (['a'] : Str), w ≠ [] ∧ ∀ c ∈ w, isWs c = false := by
    intro w hw
    rw [List.eq_of_mem_replicate hw]
    refine ⟨by simp, ?_⟩
    intro c hcm
    rcases List.mem_singleton.mp hcm with rfl
    rfl
  have hb : (pySplitWs c2500).length = 2500 := by
    show (pySplitWs (joinW (List.replicate 2500 ['a']))).length = 2500
    rw [splitWs_joinW _ hwordish, List.length_replicate]
  have hchars : ∀ c ∈ c2500, c ≠ '`' := by
    intro c hcm
    rcases joinW_chars (List.replicate 2500 ['a']) c hcm with rfl | ⟨w, hw, hcw⟩
    · decide
    · rw [List.eq_of_mem_replicate hw] at hcw
      rcases List.mem_singleton.mp hcw with rfl
      decide
  have ha : findAllRE fenceRE c2500 = [] := no_backtick_no_fence c2500.length none c2500 hchars
  have hc : findAllRE fenceRE "a b c".toList = [] := by decide
  exact ⟨⟨ha, hb, C5_amended.1 c2500 none ha hb⟩,
    ⟨le_refl 1, hc, C5_amended.2 2 1 "a b c".toList none (le_refl 1) hc⟩⟩

theorem perm_cons_erase_beq (v : Str) : ∀ l : List Str, v ∈ l → l.Perm (v :: l.erase v) := by
  intro l
  induction l with
  | nil => intro h; cases h
  | cons x xs ih =>
    intro h
    by_cases hx : (x == v) = true
    · have hxv : x = v := eq_of_beq hx
      subst hxv
      rw [List.erase_cons_head]
    · rw [List.erase_cons_tail]
      · have hvx : v ∈ xs := by
          rcases List.mem_cons.mp h with heq | h2
          · exact absurd (by rw [heq]; exact beq_self_eq_true x) hx
          · exact h2
        exact ((ih hvx).cons x).trans (List.Perm.swap v x _)
      · simpa using hx

theorem topoFuel_perm (edges : List (Str × Str)) :
    ∀ (fuel : Nat) (rem out : List Str), topoFuel edges fuel rem = some out → out.Perm rem := by
  intro fuel
  induction fuel with
  | zero =>
    intro rem out h
    cases rem with
    | nil =>
      have : ([] : List Str) = out := by simpa [topoFuel] using h
      rw [← this]
    | cons a l => cases h
  | succ n ih =>
    intro rem out h
    cases rem with
    | nil =>
      have : ([] : List Str) = out := by simpa [topoFuel] using h
      rw [← this]
    | cons a l =>
      simp only [topoFuel] at h
      cases hf : (a :: l).find? (fun v => !((a :: l).any (fun u => edges.contains (u, v)))) with
      | none =>
        simp only [hf] at h
        exact Option.noConfusion h
      | some v =>
        simp only [hf] at h
        cases hrec : topoFuel edges n ((a :: l).erase v) with
        | none => rw [hrec] at h; cases h
        | some out2 =>
          rw [hrec] at h
          have hout : v :: out2 = out := by simpa using h
          have hv : v ∈ a :: l := List.mem_of_find?_eq_some hf
          have hperm := ih ((a :: l).erase v) out2 hrec
          rw [← hout]
          exact (hperm.cons v).trans (perm_cons_erase_beq v (a :: l) hv).symm

theorem topoGo_perm (edges : List (Str × Str)) (rem out : List Str)
    (h : topoGo edges rem = some out) : out.Perm rem :=
  topoFuel_perm edges rem.length rem out h

theorem find_map_fp :
    ∀ bucket : List ProcessedDocument, (bucket.map (fun d => d.file_path)).Nodup →
      (bucket.map (fun d => d.file_path)).filterMap
        (fun f => bucket.find? (fun d => d.file_path = f)) = bucket := by
  intro bucket
  induction bucket with
  | nil => intro _; rfl
  | cons d rest ih =>
    intro hnd
    rw [List.map_cons] at hnd
    rcases List.nodup_cons.mp hnd with ⟨hd, hrest⟩
    rw [List.map_cons, List.filterMap_cons]
    have hfind : (d :: rest).find? (fun x => x.file_path = d.file_path) = some d :=
      List.find?_cons_of_pos _ (by simp)
    rw [hfind]
    have hcongr : (rest.map (fun d => d.file_path)).filterMap
        (fun f => (d :: rest).find? (fun x => x.file_path = f)) =
        (rest.map (fun d => d.file_path)).filterMap
        (fun f => rest.find? (fun x => x.file_path = f)) := by
      apply List.filterMap_congr
      intro f hf
      have hne : d.file_path ≠ f := fun he => hd (he ▸ hf)
      exact List.find?_cons_of_neg _ (by simp [hne])
    rw [hcongr, ih hrest]

theorem insertStable_mem {α : Type} (lt : α → α → Bool) (y : α) :
    ∀ (acc : List α) (x : α), x ∈ insertStable lt y acc → x = y ∨ x ∈ acc := by
  intro acc
  induction acc with
  | nil => intro x hx; simpa [insertStable] using hx
  | cons a l ih =>
    intro x hx
    by_cases h : lt y a
    · simp only [insertStable, h, if_true] at hx
      rcases List.mem_cons.mp hx with rfl | hx2
      · exact Or.inl rfl
      · exact Or.inr hx2
    · simp only [insertStable, h, Bool.false_eq_true, if_false] at hx
      rcases List.mem_cons.mp hx with rfl | hx2
      · exact Or.inr (by simp)
      · rcases ih x hx2 with h3 | h3
        · exact Or.inl h3
        · exact Or.inr (by simp [h3])

theorem stableSortBy_mem {α : Type} (lt : α → α → Bool) :
    ∀ (l acc : List α) (x : α), x ∈ l.foldl (fun acc x => insertStable lt x acc) acc →
      x ∈ acc ∨ x ∈ l := by
  intro l
  induction l with
  | nil => intro acc x hx; exact Or.inl hx
  | cons y ys ih =>
    intro acc x hx
    rcases ih (insertStable lt y acc) x hx with h1 | h1
    · rcases insertStable_mem lt y acc x h1 with rfl | h2
      · exact Or.inr (by simp)
      · exact Or.inl h2
    · exact Or.inr (by simp [h1])

theorem tswcSeg_mem (docs : List ProcessedDocument) (g : List (Str × Str)) (c : Str)
    (x : ProcessedDocument) (hx : x ∈ tswcSeg docs g c) :
    x ∈ docs.filter (fun d => d.category = some c) := by
  simp only [tswcSeg] at hx
  by_cases hb : docs.filter (fun d => d.category = some c) = []
  · rw [if_pos hb] at hx
    cases hx
  · rw [if_neg hb] at hx
    cases htopo : topoGo (subgraphEdges g ((docs.filter (fun d => d.category = some c)).map
        (fun d => d.file_path))) ((docs.filter (fun d => d.category = some c)).map
        (fun d => d.file_path)) with
    | some sf =>
      rw [htopo] at hx
      rcases List.mem_filterMap.mp hx with ⟨f, _, hfind⟩
      exact List.mem_of_find?_eq_some hfind
    | none =>
      rw [htopo] at hx
      exact hx

theorem tswc_mem (docs : List ProcessedDocument) (g : List (Str × Str)) (x : ProcessedDocument)
    (hx : x ∈ topological_sort_with_categories docs g) :
    ∃ c ∈ categoryOrder, x ∈ docs.filter (fun d => d.category = some c) := by
  simp only [topological_sort_with_categories, List.mem_bind] at hx
  obtain ⟨c, hc, hxc⟩ := hx
  exact ⟨c, hc, tswcSeg_mem docs g c x hxc⟩

theorem bind_perm_congr {α β : Type} :
    ∀ (cats : List α) (f g : α → List β), (∀ c ∈ cats, (f c).Perm (g c)) →
      (cats.bind f).Perm (cats.bind g) := by
  intro cats
  induction cats with
  | nil => intro f g _; rfl
  | cons c rest ih =>
    intro f g h
    simp only [List.cons_bind]
    exact (h c (by simp)).append (ih f g (fun x hx => h x (by simp [hx])))

theorem tswcSeg_perm (docs : List ProcessedDocument) (g : List (Str × Str))
    (hnd : (docs.map (fun d => d.file_path)).Nodup) (c : Str) :
    (tswcSeg docs g c).Perm (docs.filter (fun d => d.category = some c)) := by
  simp only [tswcSeg]
  by_cases hb : docs.filter (fun d => d.category = some c) = []
  · rw [if_pos hb, hb]
  · rw [if_neg hb]
    cases htopo : topoGo (subgraphEdges g ((docs.filter (fun d => d.category = some c)).map
        (fun d => d.file_path))) ((docs.filter (fun d => d.category = some c)).map
        (fun d => d.file_path)) with
    | some sf =>
      have hperm := topoGo_perm _ _ _ htopo
      have hbnd : ((docs.filter (fun d => d.category = some c)).map
          (fun d => d.file_path)).Nodup :=
        List.Nodup.sublist (List.Sublist.map _ (List.filter_sublist docs)) hnd
      exact (List.Perm.filterMap _ hperm).trans
        (by rw [find_map_fp _ hbnd])
    | none => exact List.Perm.refl _

theorem count_bucket_eq (docs : List ProcessedDocument) (x : ProcessedDocument) (c : Str)
    (hx : x.category = some c) :
    List.count x (docs.filter (fun d => d.category = some c)) = List.count x docs :=
  List.count_filter (by simp [hx])

theorem count_bucket_zero (docs : List ProcessedDocument) (x : ProcessedDocument) (c : Str)
    (hx : x.category ≠ some c) :
    List.count x (docs.filter (fun d => d.category = some c)) = 0 := by
  rw [List.count_eq_zero]
  intro hmem
  exact hx (by simpa using (List.mem_filter.mp hmem).2)

theorem partition_perm (docs : List ProcessedDocument)
    (hclosure : ∀ d ∈ docs, d.category ∈ categoryOrder.map some) :
    (categoryOrder.bind (fun c => docs.filter (fun d => d.category = some c))).Perm docs := by
  rw [List.perm_iff_count]
  intro x
  rw [List.count_bind]
  by_cases hx : x ∈ docs
  · rcases List.mem_map.mp (hclosure x hx) with ⟨c0, hc0, hc0x⟩
    have key : ∀ cats : List Str, cats.Nodup → c0 ∈ cats →
        (cats.map ((fun l => List.count x l) ∘
          (fun c => docs.filter (fun d => d.category = some c)))).sum = List.count x docs := by
      intro cats
      induction cats with
      | nil => intro _ h; cases h
      | cons c1 rest ih =>
        intro hnodup hmem
        rcases List.nodup_cons.mp hnodup with ⟨hc1, hrest⟩
        rw [List.map_cons, List.sum_cons]
        by_cases hceq : c1 = c0
        · subst hceq
          have hzero : (rest.map ((fun l => List.count x l) ∘
              (fun c => docs.filter (fun d => d.category = some c)))).sum = 0 := by
            apply List.sum_eq_zero
            intro y hy
            rcases List.mem_map.mp hy with ⟨c2, hc2, rfl⟩
            have : x.category ≠ some c2 := by
              rw [← hc0x]
              intro he
              exact hc1 (by rw [Option.some.injEq] at he; rw [he]; exact hc2)
            exact count_bucket_zero docs x c2 this
          rw [hzero]
          have := count_bucket_eq docs x c1 hc0x.symm
          simpa using this
        · rcases List.mem_cons.mp hmem with rfl | h2
          · exact absurd rfl hceq
          · have : x.category ≠ some c1 := by
              rw [← hc0x]
              intro he
              rw [Option.some.injEq] at he
              exact hceq he.symm
            have h0 := count_bucket_zero docs x c1 this
            simp only [Function.comp] at h0 ⊢
            rw [h0, ih hrest h2, Nat.zero_add]
    exact key categoryOrder (by decide) hc0
  · have h0 : List.count x docs = 0 := List.count_eq_zero.mpr hx
    rw [h0]
    apply List.sum_eq_zero
    intro y hy
    rcases List.mem_map.mp hy with ⟨c2, _, rfl⟩
    simp only [Function.comp]
    rw [List.count_eq_zero]
    intro hmem
    exact hx (List.mem_of_mem_filter hmem)

theorem tswc_perm (docs : List ProcessedDocument) (g : List (Str × Str))
    (hnd : (docs.map (fun d => d.file_path)).Nodup)
    (hclosure : ∀ d ∈ docs, d.category ∈ categoryOrder.map some) :
    (topological_sort_with_categories docs g).Perm docs := by
  have h1 := bind_perm_congr categoryOrder (tswcSeg docs g)
    (fun c => docs.filter (fun d => d.category = some c))
    (fun c _ => tswcSeg_perm docs g hnd c)
  exact h1.trans (partition_perm docs hclosure)

theorem bind_filter_nil {α β : Type} (p : β → Bool) :
    ∀ (cats : List α) (seg : α → List β), (∀ c ∈ cats, (seg c).filter p = []) →
      (cats.bind seg).filter p = [] := by
  intro cats
  induction cats with
  | nil => intro _ _; rfl
  | cons c rest ih =>
    intro seg h
    simp only [List.cons_bind, List.filter_append]
    rw [h c (by simp), ih seg (fun x hx => h x (by simp [hx]))]
    rfl

theorem bind_filter_single {α β : Type} (p : β → Bool) :
    ∀ (cats : List α) (seg : α → List β) (c : α), cats.Nodup → c ∈ cats →
      (∀ c2 ∈ cats, c2 ≠ c → (seg c2).filter p = []) →
      (cats.bind seg).filter p = (seg c).filter p := by
  intro cats
  induction cats with
  | nil => intro _ c _ hmem _; cases hmem
  | cons c1 rest ih =>
    intro seg c hnodup hmem h
    rcases List.nodup_cons.mp hnodup with ⟨hc1, hrest⟩
    simp only [List.cons_bind, List.filter_append]
    by_cases hceq : c1 = c
    · subst hceq
      have hz : (rest.bind seg).filter p = [] := by
        apply bind_filter_nil
        intro c2 hc2
        exact h c2 (by simp [hc2]) (fun he => hc1 (he ▸ hc2))
      rw [hz, List.append_nil]
    · rw [h c1 (by simp) hceq, List.nil_append]
      rcases List.mem_cons.mp hmem with rfl | h2
      · exact absurd rfl hceq
      · exact ih seg c hrest h2 (fun c2 hc2 hne => h c2 (by simp [hc2]) hne)

theorem tswcSeg_filter_ne (docs : List ProcessedDocument) (g : List (Str × Str)) (c2 c : Str)
    (hne : c2 ≠ c) :
    (tswcSeg docs g c2).filter (fun d => d.category = some c) = [] := by
  rw [List.filter_eq_nil_iff]
  intro x hx
  have := (List.mem_filter.mp (tswcSeg_mem docs g c2 x hx)).2
  simp only [decide_eq_true_eq] at this
  simp only [this, decide_eq_true_eq, Option.some.injEq]
  exact fun he => hne he

theorem tswcSeg_cyclic (docs : List ProcessedDocument) (g : List (Str × Str)) (c : Str)
    (hcyc : topoGo (subgraphEdges g ((docs.filter (fun d => d.category = some c)).map
        (fun d => d.file_path)))
      ((docs.filter (fun d => d.category = some c)).map (fun d => d.file_path)) = none) :
    tswcSeg docs g c = docs.filter (fun d => d.category = some c) := by
  simp only [tswcSeg]
  by_cases hb : docs.filter (fun d => d.category = some c) = []
  · rw [if_pos hb, hb]
  · rw [if_neg hb, hcyc]

theorem tswc_filter_cyclic (docs : List ProcessedDocument) (g : List (Str × Str)) (c : Str)
    (hc : c ∈ categoryOrder)
    (hcyc : topoGo (subgraphEdges g ((docs.filter (fun d => d.category = some c)).map
        (fun d => d.file_path)))
      ((docs.filter (fun d => d.category = some c)).map (fun d => d.file_path)) = none) :
    (topological_sort_with_categories docs g).filter (fun d => d.category = some c) =
      docs.filter (fun d => d.category = some c) := by
  rw [topological_sort_with_categories,
    bind_filter_single _ categoryOrder (tswcSeg docs g) c (by decide) hc
      (fun c2 _ hne => tswcSeg_filter_ne docs g c2 c hne),
    tswcSeg_cyclic docs g c hcyc]
  rw [List.filter_eq_self]
  intro a ha
  exact (List.mem_filter.mp ha).2

/-- C7: when some category's induced subgraph of the reference graph is
cyclic, the topological pass is total (no exception escapes: the
NetworkXUnfeasible branch falls back), every cyclic bucket keeps its
incoming (pre-topological) order unchanged, and the overall result is a
permutation of the input documents (each exactly once). -/
theorem C7_cycle_safe (docs : List ProcessedDocument)
    (hnd : (docs.map (fun d => d.file_path)).Nodup)
    (hclosure : ∀ d ∈ docs, d.category ∈ categoryOrder.map some)
    (hcyc : ∃ c ∈ categoryOrder, topoGo (subgraphEdges (create_dependency_graph docs)
        ((docs.filter (fun d => d.category = some c)).map (fun d => d.file_path)))
      ((docs.filter (fun d => d.category = some c)).map (fun d => d.file_path)) = none) :
    (∀ c ∈ categoryOrder, topoGo (subgraphEdges (create_dependency_graph docs)
          ((docs.filter (fun d => d.category = some c)).map (fun d => d.file_path)))
        ((docs.filter (fun d => d.category = some c)).map (fun d => d.file_path)) = none →
      (topological_sort_with_categories docs (create_dependency_graph docs)).filter
          (fun d => d.category = some c) = docs.filter (fun d => d.category = some c)) ∧
    (topological_sort_with_categories docs (create_dependency_graph docs)).Perm docs := by
  refine ⟨?_, tswc_perm docs _ hnd hclosure⟩
  intro c hc hcy
  exact tswc_filter_cyclic docs _ c hc hcy

theorem C7_cycle_witness :
    (∀ c ∈ categoryOrder, topoGo (subgraphEdges (create_dependency_graph [cycDocA, cycDocB])
          (([cycDocA, cycDocB].filter (fun d => d.category = some c)).map
            (fun d => d.file_path)))
        (([cycDocA, cycDocB].filter (fun d => d.category = some c)).map
          (fun d => d.file_path)) = none →
      (topological_sort_with_categories [cycDocA, cycDocB]
          (create_dependency_graph [cycDocA, cycDocB])).filter
          (fun d => d.category = some c) =
        [cycDocA, cycDocB].filter (fun d => d.category = some c)) ∧
    (topological_sort_with_categories [cycDocA, cycDocB]
        (create_dependency_graph [cycDocA, cycDocB])).Perm [cycDocA, cycDocB] :=
  C7_cycle_safe [cycDocA, cycDocB] (by decide) (by decide)
    ⟨"guides".toList, by decide, by decide⟩

theorem mem_edge_entry (doc other : ProcessedDocument) (u v : Str) :
    ((u, v) ∈ (if doc.file_path ≠ other.file_path then
        (if subOccurs other.original_url (concatContent doc) then
          [(doc.file_path, other.file_path)] else []) ++
        (if subOccurs other.title (concatContent doc) then
          [(doc.file_path, other.file_path)] else [])
      else [])) ↔
    (doc.file_path = u ∧ other.file_path = v ∧ u ≠ v ∧
      (subOccurs other.original_url (concatContent doc) = true ∨
       subOccurs other.title (concatContent doc) = true)) := by
  split_ifs with h1 h2 h3 <;> simp_all [Prod.ext_iff] <;>
    exact ⟨fun h => ⟨h.1.symm, h.2.symm, fun he => h1 ((h.1.symm.trans he).trans h.2)⟩,
      fun h => ⟨h.1.symm, h.2.1.symm⟩⟩

theorem mem_cdg (docs : List ProcessedDocument) (u v : Str) :
    (u, v) ∈ create_dependency_graph docs ↔
      ∃ doc ∈ docs, ∃ other ∈ docs, doc.file_path = u ∧ other.file_path = v ∧ u ≠ v ∧
        (subOccurs other.original_url (concatContent doc) = true ∨
         subOccurs other.title (concatContent doc) = true) := by
  simp only [create_dependency_graph, List.mem_bind]
  constructor
  · rintro ⟨doc, hdoc, other, hother, hin⟩
    exact ⟨doc, hdoc, other, hother, (mem_edge_entry doc other u v).mp hin⟩
  · rintro ⟨doc, hdoc, other, hother, h⟩
    exact ⟨doc, hdoc, other, hother, (mem_edge_entry doc other u v).mpr h⟩

theorem mem_predecessorsIn (docs : List ProcessedDocument) (g : List (Str × Str)) (v p : Str) :
    p ∈ predecessorsIn docs g v ↔ (∃ d ∈ docs, d.file_path = p) ∧ (p, v) ∈ g := by
  simp only [predecessorsIn, List.mem_filter, List.mem_map]
  constructor
  · rintro ⟨⟨d, hd, hfp⟩, hc⟩
    refine ⟨⟨d, hd, hfp⟩, ?_⟩
    have : g.contains (p, v) = true := hc
    simpa using this
  · rintro ⟨⟨d, hd, hfp⟩, hg⟩
    exact ⟨⟨d, hd, hfp⟩, by simpa using hg⟩

theorem sort_documents_shape (resp : ProcessedDocument → Option Str)
    (docs : List ProcessedDocument) (A : ProcessedDocument)
    (hA : A ∈ sort_documents resp docs) :
    ∃ B0 ∈ docs,
      A.file_path = B0.file_path ∧ A.original_url = B0.original_url ∧ A.title = B0.title ∧
      A.dependencies = predecessorsIn
        (docs.map (fun d => { d with category := some (classify_document (resp d) d) }))
        (create_dependency_graph
          (docs.map (fun d => { d with category := some (classify_document (resp d) d) })))
        B0.file_path := by
  simp only [sort_documents] at hA
  obtain ⟨c, hc, hAf⟩ := tswc_mem _ _ _ hA
  have hA2 := List.mem_of_mem_filter hAf
  simp only [stableSortBy] at hA2
  rcases stableSortBy_mem sortKeyLt _ [] A hA2 with h | h
  · cases h
  · simp only [calculate_complexity_scores, List.mem_map] at h
    obtain ⟨d, hd, hdA⟩ := h
    obtain ⟨c2, hc2, hc2d⟩ := hd
    obtain ⟨B0, hB0, hB0c⟩ := hc2
    subst hdA
    subst hc2d
    subst hB0c
    exact ⟨B0, hB0, rfl, rfl, rfl, rfl⟩

/-- C4: after `sort_documents`, each output document's `dependencies` list
holds exactly the file paths of the documents that reference it: those
`B ≠ A` (distinct file paths) whose concatenated chunk contents contain
`A`'s original URL or `A`'s title as a substring.  (`resp` abstracts the
external classifier's reply; file paths are assumed distinct, as
`networkx` nodes are keyed by file path.) -/
theorem C4_dependencies (resp : ProcessedDocument → Option Str)
    (docs : List ProcessedDocument) (i : Nat) (p : Str) (A : ProcessedDocument)
    (hnd : (docs.map (fun d => d.file_path)).Nodup)
    (hi : i < (sort_documents resp docs).length)
    (hA : A = (sort_documents resp docs).getD i dfltDoc) :
    p ∈ A.dependencies ↔
      ∃ B ∈ docs, B.file_path = p ∧ p ≠ A.file_path ∧
        (subOccurs A.original_url (concatContent B) = true ∨
         subOccurs A.title (concatContent B) = true) := by
  have hmem : A ∈ sort_documents resp docs := by
    subst hA
    rw [List.getD_eq_getElem (sort_documents resp docs) dfltDoc hi]
    exact List.getElem_mem hi
  obtain ⟨B0, hB0, hfp, hurl, htitle, hdeps⟩ := sort_documents_shape resp docs A hmem
  rw [hdeps, mem_predecessorsIn, mem_cdg]
  constructor
  · rintro ⟨-, doc, hdoc, other, hother, hdocfp, hotherfp, hne, hocc⟩
    simp only [List.mem_map] at hdoc hother
    obtain ⟨B, hB, hBdoc⟩ := hdoc
    obtain ⟨O, hO, hOother⟩ := hother
    subst hBdoc
    subst hOother
    have hOfp : O.file_path = B0.file_path := hotherfp
    have hOB0 : O = B0 := List.inj_on_of_nodup_map hnd hO hB0 hOfp
    subst hOB0
    refine ⟨B, hB, hdocfp, ?_, ?_⟩
    · rw [hfp]; exact hne
    · rw [hurl, htitle]; exact hocc
  · rintro ⟨B, hB, hBfp, hne, hocc⟩
    constructor
    · exact ⟨{ B with category := some (classify_document (resp B) B) },
        List.mem_map.mpr ⟨B, hB, rfl⟩, hBfp⟩
    · refine ⟨{ B with category := some (classify_document (resp B) B) },
        List.mem_map.mpr ⟨B, hB, rfl⟩,
        { B0 with category := some (classify_document (resp B0) B0) },
        List.mem_map.mpr ⟨B0, hB0, rfl⟩, hBfp, rfl, ?_, ?_⟩
      · rw [hfp] at hne; exact hne
      · rw [hurl, htitle] at hocc; exact hocc

theorem C4_witness :
    "b".toList ∈
        ((sort_documents (fun _ => none) [depDocA, depDocB]).getD 0 dfltDoc).dependencies ↔
      ∃ B ∈ [depDocA, depDocB], B.file_path = "b".toList ∧
        "b".toList ≠ ((sort_documents (fun _ => none) [depDocA, depDocB]).getD 0
          dfltDoc).file_path ∧
        (subOccurs ((sort_documents (fun _ => none) [depDocA, depDocB]).getD 0
            dfltDoc).original_url (concatContent B) = true ∨
         subOccurs ((sort_documents (fun _ => none) [depDocA, depDocB]).getD 0
            dfltDoc).title (concatContent B) = true) :=
  C4_dependencies (fun _ => none) [depDocA, depDocB] 0 "b".toList _
    (by decide) (by decide) rfl
